import Mathlib

/-!
Verification development for `doublegit` (src/doublegit.py).

The Python module is shallowly embedded:
* the fetch-report parser (`_re_fetch`, `parse_remote_ref`, `parse_fetch_output`)
  becomes a deterministic matcher over the characters of each report line,
  reproducing the backtracking behaviour of the regular expression
  ` ([+t*! -]) +([^ ]+|\[[^\]]+\]) +([^ ]+) +-> +([^ ]+)(?: +(.+))?$` used with
  `re.match` (anchored at position 0);
* the SQLite `refs` table becomes a list of rows in insertion (rowid) order;
  `UPDATE ... ORDER BY from_date DESC LIMIT 1` updates the first row in table
  order carrying the maximal `from_date` among the rows of the `(remote,name)`
  pair, and `INSERT` appends;
* the git branch set becomes an association list from branch name to commit id,
  with commit reachability an explicit boolean relation `anc a b`
  ("`a` is an ancestor of, or equal to, `b`");
* timestamps become naturals (the code compares `'%Y-%m-%d %H:%M:%S'` strings,
  whose lexicographic order is chronological order);
* fallible subprocess calls become `Option`/error-carrying results.
-/

namespace Doublegit

/-- `Ref` namedtuple from the source: `(remote, name, tag)`. -/
structure Ref where
  remote : String
  name : String
  tag : Bool
deriving DecidableEq, Repr

/-- The status-character class `[+t*! -]` of `_re_fetch`
(`Operation.FORCED`, `TAG`, `NEW`, `REJECT`, `FAST_FORWARD`, `PRUNED`). -/
def statusChars : List Char := ['+', 't', '*', '!', ' ', '-']

/-- ` +` after a mandatory first space: require one space, drop the maximal run. -/
def dropSpaces1 : List Char → Option (List Char)
  | ' ' :: rest => some (rest.dropWhile (· = ' '))
  | _ => none

/-- `[^ ]+`: the maximal nonempty run of non-space characters.
(The regex piece is always followed by ` +` or by the line end, so the
backtracking engine is forced to take the maximal run.) -/
def takeToken (cs : List Char) : Option (String × List Char) :=
  let tok := cs.takeWhile (· ≠ ' ')
  if tok.isEmpty then none
  else some (String.mk tok, cs.dropWhile (· ≠ ' '))

/-- `\[[^\]]+\]`: a bracketed summary; `[^\]]+` runs to the first `]`. -/
def takeBracketed : List Char → Option (String × List Char)
  | '[' :: rest =>
    let inner := rest.takeWhile (· ≠ ']')
    match rest.dropWhile (· ≠ ']') with
    | ']' :: rest2 =>
      if inner.isEmpty then none
      else some (String.mk ('[' :: (inner ++ [']'])), rest2)
    | _ => none
  | _ => none

/-- `(?: +(.+))?$` after the destination token: either the line ends, or one
or more spaces followed by the captured reason.  When everything after the
destination is spaces, ` +` backtracks so that `.+` captures a single space;
with exactly one trailing space neither alternative fits and the whole line
fails to match. -/
def matchReasonTail (cs : List Char) : Option (Option String) :=
  match cs with
  | [] => some none
  | ' ' :: rest =>
    let r := rest.dropWhile (· = ' ')
    if r.isEmpty then
      if rest.isEmpty then none else some (some " ")
    else some (some (String.mk r))
  | _ => none

/-- ` +([^ ]+) +-> +([^ ]+)(?: +(.+))?$`: source ref, arrow, destination ref,
optional reason. -/
def matchFromToTail (cs : List Char) : Option (String × String × Option String) := do
  let cs1 ← dropSpaces1 cs
  let (fr, cs2) ← takeToken cs1
  let cs3 ← dropSpaces1 cs2
  match cs3 with
  | '-' :: '>' :: cs4 => do
    let cs5 ← dropSpaces1 cs4
    let (dst, cs6) ← takeToken cs5
    let rsn ← matchReasonTail cs6
    some (fr, dst, rsn)
  | _ => none

/-- `_re_fetch.match(line)`: on success, the five captured groups
(status character, summary, source, destination, optional reason).
The summary alternation tries the plain token first, then the bracketed form,
exactly as the regex alternation does. -/
def matchFetchLine (line : String) : Option (Char × String × String × String × Option String) :=
  match line.data with
  | ' ' :: op :: rest =>
    if op ∈ statusChars then
      match dropSpaces1 rest with
      | none => none
      | some cs =>
        let alt1 : Option (Char × String × String × String × Option String) := do
          let (s, cs') ← takeToken cs
          let (fr, dst, rsn) ← matchFromToTail cs'
          some (op, s, fr, dst, rsn)
        let alt2 : Option (Char × String × String × String × Option String) := do
          let (s, cs') ← takeBracketed cs
          let (fr, dst, rsn) ← matchFromToTail cs'
          some (op, s, fr, dst, rsn)
        alt1 <|> alt2
    else none
  | _ => none

/-- Errors raised inside `parse_fetch_output` / `parse_remote_ref`:
the `ValueError` naming the destination ref for a rejected update, the
`AssertionError` for a foreign remote prefix, the `ValueError` from unpacking
`ref.split('/', 1)` when the destination has no slash, and the defensive
`RuntimeError` for an unknown status character. -/
inductive ParseErr where
  | rejected (dst : String)
  | badRemote (remotePart : String)
  | noSlash (ref : String)
  | unknownOp
deriving DecidableEq, Repr

/-- `parse_remote_ref(ref, remote)`: split at the first `/`, check the prefix
equals `remote`, and build a non-tag `Ref`. -/
def parse_remote_ref (ref remote : String) : Except ParseErr Ref :=
  match ref.data.dropWhile (· ≠ '/') with
  | '/' :: nm =>
    if String.mk (ref.data.takeWhile (· ≠ '/')) = remote then
      .ok ⟨remote, String.mk nm, false⟩
    else .error (.badRemote (String.mk (ref.data.takeWhile (· ≠ '/'))))
  | _ => .error (.noSlash ref)

/-- `ref_name(ref)`: display form used as the argument of `git rev-parse`. -/
def ref_name (r : Ref) : String :=
  if r.tag then r.name else r.remote ++ "/" ++ r.name

/-- Which of the three output buckets a parsed line goes to. -/
inductive Bucketed where
  | toNew (r : Ref)
  | toChanged (r : Ref)
  | toRemoved (r : Ref)
deriving DecidableEq, Repr

/-- The per-line body of the `parse_fetch_output` loop: `None` for a line that
does not match `_re_fetch` (ignored), otherwise the dispatch on the status
character from the source. -/
def classifyLine (l : String) : Except ParseErr (Option Bucketed) :=
  match matchFetchLine l with
  | none => .ok none
  | some (op, _s, _f, dst, _r) =>
    if op = '*' then
      if dst.data.contains '/' then (parse_remote_ref dst "origin").map (some ∘ .toNew)
      else .ok (some (.toNew ⟨"origin", dst, true⟩))
    else if op = ' ' ∨ op = '+' then
      (parse_remote_ref dst "origin").map (some ∘ .toChanged)
    else if op = '-' then
      if dst.data.contains '/' then (parse_remote_ref dst "origin").map (some ∘ .toRemoved)
      else .ok (some (.toRemoved ⟨"origin", dst, true⟩))
    else if op = 't' then
      .ok (some (.toChanged ⟨"origin", dst, true⟩))
    else if op = '!' then
      .error (.rejected dst)
    else
      .error .unknownOp

/-- `parse_fetch_output`: fold the classifier over the report lines in order,
collecting the three buckets; the first raised error aborts the whole parse. -/
def parse_fetch_output : List String → Except ParseErr (List Ref × List Ref × List Ref)
  | [] => .ok ([], [], [])
  | l :: ls =>
    match classifyLine l with
    | .error e => .error e
    | .ok b =>
      match parse_fetch_output ls with
      | .error e => .error e
      | .ok (n, c, r) =>
        match b with
        | none => .ok (n, c, r)
        | some (.toNew x) => .ok (x :: n, c, r)
        | some (.toChanged x) => .ok (n, x :: c, r)
        | some (.toRemoved x) => .ok (n, c, x :: r)

/-- Projection of `classifyLine` onto the `new` bucket. -/
def bucketNew (l : String) : Option Ref :=
  match classifyLine l with
  | .ok (some (.toNew r)) => some r
  | _ => none

/-- Projection of `classifyLine` onto the `changed` bucket. -/
def bucketChanged (l : String) : Option Ref :=
  match classifyLine l with
  | .ok (some (.toChanged r)) => some r
  | _ => none

/-- Projection of `classifyLine` onto the `removed` bucket. -/
def bucketRemoved (l : String) : Option Ref :=
  match classifyLine l with
  | .ok (some (.toRemoved r)) => some r
  | _ => none

/-! ## History store

One row of the SQLite `refs` table.  `from_date`/`to_date` timestamps are
naturals: the code stores `'%Y-%m-%d %H:%M:%S'` strings whose lexicographic
(SQL) order coincides with chronological order. -/

/-- A row of `refs(remote, name, from_date, to_date NULL, sha, tag)`. -/
structure Row where
  remote : String
  name : String
  from_date : Nat
  to_date : Option Nat
  sha : String
  tag : Bool
deriving DecidableEq, Repr

/-- The `WHERE remote=? AND name=?` filter of the close statement. -/
def rowMatches (R N : String) (row : Row) : Bool :=
  row.remote == R && row.name == N

/-- The rows of one `(remote,name)` pair, in table (insertion) order. -/
def pairRows (R N : String) (db : List Row) : List Row :=
  db.filter (rowMatches R N)

/-- `MAX(from_date)` over the rows matching `(remote,name)` (`none` if none match):
the `from_date` of the row selected by `ORDER BY from_date DESC LIMIT 1`. -/
def maxFrom : List Row → String → String → Option Nat
  | [], _, _ => none
  | row :: rest, R, N =>
    let m := maxFrom rest R N
    if rowMatches R N row then
      match m with
      | none => some row.from_date
      | some v => some (max row.from_date v)
    else m

/-- Set `to_date := t` on the first row in table order that matches
`(remote,name)` and carries `from_date = m`. -/
def setToFirst (R N : String) (m t : Nat) : List Row → List Row
  | [] => []
  | row :: rest =>
    if rowMatches R N row && row.from_date == m then
      { row with to_date := some t } :: rest
    else row :: setToFirst R N m t rest

/-- The close statement of `update` (src lines 166-174):
`UPDATE refs SET to_date=? WHERE remote=? AND name=? ORDER BY from_date DESC
LIMIT 1` — update the single matching row with the greatest `from_date`
(first in table order among equals), or do nothing when no row matches. -/
def closeOpen (db : List Row) (R N : String) (t : Nat) : List Row :=
  match maxFrom db R N with
  | none => db
  | some m => setToFirst R N m t db

/-- The insert statement of `update` (src lines 177-183):
`INSERT INTO refs(remote, name, from_date, to_date, sha, tag)
VALUES(?, ?, ?, NULL, ?, ?)` — append a new open row. -/
def openNew (db : List Row) (R N : String) (t : Nat) (sha : String) (tag : Bool) : List Row :=
  db ++ [⟨R, N, t, none, sha, tag⟩]

/-- The database effect of one successful `update` pass: the three parsed
buckets, the single pass timestamp, and the commit resolution `git rev-parse`
returned for each reference during the pass. -/
structure PassInput where
  removed : List Ref
  changed : List Ref
  news : List Ref
  time : Nat
  shaOf : Ref → String

/-- The two database loops of `update` (src lines 165-183): close the latest
row for every removed-or-changed reference, then insert an open row for every
changed-or-new reference — both at the single pass timestamp. -/
def applyPass (db : List Row) (p : PassInput) : List Row :=
  let db1 := (p.removed ++ p.changed).foldl
    (fun d r => closeOpen d r.remote r.name p.time) db
  (p.changed ++ p.news).foldl
    (fun d r => openNew d r.remote r.name p.time (p.shaOf r) r.tag) db1

/-- A sequence of successful passes starting from the empty store. -/
def applySeq (ps : List PassInput) : List Row :=
  ps.foldl applyPass []

/-- How many references of a pass list concern the pair `(remote,name)`. -/
def occ (R N : String) (l : List Ref) : Nat :=
  l.countP (fun r => r.remote == R && r.name == N)

/-- Liveness of the pair after a pass: pruned references die, changed or new
references are live, untouched pairs keep their state. -/
def liveAfter (R N : String) (p : PassInput) (live : Bool) : Bool :=
  if occ R N p.removed ≠ 0 then false
  else if occ R N p.changed + occ R N p.news ≠ 0 then true
  else live

/-- A pass is a faithful fetch observation for the pair `(remote,name)`:
git reports at most one transition line per reference per fetch, prunes or
changes only a currently-existing reference, and reports as new only a
reference that does not currently exist. -/
def validPassB (R N : String) (p : PassInput) (live : Bool) : Bool :=
  decide (occ R N p.removed + occ R N p.changed + occ R N p.news ≤ 1) &&
  (decide (occ R N p.removed + occ R N p.changed = 0) || live) &&
  (decide (occ R N p.news = 0) || !live)

/-- A valid observation sequence for the pair `(remote,name)`: pass
timestamps strictly increase and every pass is a faithful fetch observation
for the pair, starting from liveness `live` and clock `T`. -/
def validSeqB (R N : String) : List PassInput → Option Nat → Bool → Bool
  | [], _, _ => true
  | p :: ps, T, live =>
    (match T with | none => true | some t => decide (t < p.time)) &&
    validPassB R N p live &&
    validSeqB R N ps (some p.time) (liveAfter R N p live)

/-- Soundness of a pair's history rows (in table order): every row but
possibly the last is closed, each closed row spans `from_date ≤ to_date`,
`to_date` is at most the next row's `from_date`, and `from_date` strictly
increases.  This is the non-overlapping ordered-partition invariant with at
most one open row, positioned last. -/
def historyOkB : List Row → Bool
  | [] => true
  | [r] =>
    match r.to_date with
    | none => true
    | some u => decide (r.from_date ≤ u)
  | a :: b :: rest =>
    (match a.to_date with
     | none => false
     | some u => decide (a.from_date ≤ u) && decide (u ≤ b.from_date)) &&
    decide (a.from_date < b.from_date) && historyOkB (b :: rest)

/-- Strict contiguity as claimed by the spec: each row's `to_date` equals the
next row's `from_date`. -/
def contiguousB : List Row → Bool
  | a :: b :: rest => (a.to_date == some b.from_date) && contiguousB (b :: rest)
  | _ => true

/-- Induction invariant for a pair's rows: chained and strictly ordered as in
`historyOkB`, all dates bounded by the clock `T`, and the last row open
exactly when the pair is currently live. -/
def RowsInv : List Row → Nat → Bool → Prop
  | [], _, live => live = false
  | [r], T, live =>
    r.from_date ≤ T ∧
    (match r.to_date with
     | none => live = true
     | some u => r.from_date ≤ u ∧ u ≤ T ∧ live = false)
  | a :: b :: rest, T, live =>
    (∃ u, a.to_date = some u ∧ a.from_date ≤ u ∧ u ≤ b.from_date) ∧
    a.from_date < b.from_date ∧ RowsInv (b :: rest) T live

/-! ## Git branch state and the retention reconciler

Local branches (`refs/heads/*`) as an association list from branch name to
commit id.  `anc a b` is the fixed reachability relation of the object store:
"`a` is an ancestor of, or equal to, `b`".  `git branch --merged sha` lists
the branches whose tip is an ancestor-or-equal of `sha`; `git branch
--contains sha` lists the branches whose tip is a descendant-or-equal. -/

/-- The local branch set: `(name, commit id)` pairs. -/
abbrev GitState := List (String × String)

/-- Does a branch of this name exist? -/
def hasBranch (st : GitState) (b : String) : Bool :=
  st.any (fun p => p.1 == b)

/-- The commit a named branch points at, if the branch exists. -/
def branchSha (st : GitState) (b : String) : Option String :=
  (st.find? (fun p => p.1 == b)).map (·.2)

/-- An effective branch mutation: a branch came into existence, moved to a
different commit, or was deleted.  (`git branch -f` onto the commit the
branch already points at changes nothing and is not recorded.) -/
inductive Mut where
  | created (b sha : String)
  | moved (b old new : String)
  | deleted (b : String)
deriving DecidableEq, Repr

/-- `make_branch` = `git branch -f name sha`: create the branch or force it
to the given commit. -/
def setBranch (st : GitState) (b sha : String) : GitState × List Mut :=
  match branchSha st b with
  | none => (st ++ [(b, sha)], [.created b sha])
  | some old =>
    if old == sha then (st, [])
    else (st.map (fun p => if p.1 == b then (b, sha) else p), [.moved b old sha])

/-- `delete_branch` failure: `git branch -D` exits non-zero when the branch
does not exist. -/
inductive GitErr where
  | branchNotFound (b : String)
deriving DecidableEq, Repr

/-- The anchor branch name `'keep-%s' % sha`. -/
def keeperName (sha : String) : String := "keep-" ++ sha

/-- The per-reference body of the pruning loop (src lines 192-198), given the
resolved commit: delete every branch merged into `sha` other than the anchor
(`included_branches`, computed once, then deleted one by one — each exists, so
these deletions cannot fail), then, for a non-tag reference, if more than one
remaining branch contains `sha`, delete the anchor itself — which fails if the
anchor no longer exists. -/
def cleanupSha (anc : String → String → Bool) (st : GitState) (sha : String) (tag : Bool) :
    GitState × List Mut × Option GitErr :=
  let keeper := keeperName sha
  let doomed := (st.filter (fun p => anc p.2 sha && p.1 != keeper)).map (·.1)
  let st1 := st.filter (fun p => !(anc p.2 sha && p.1 != keeper))
  let m1 := doomed.map Mut.deleted
  if !tag && decide ((st1.filter (fun p => anc sha p.2)).length > 1) then
    if hasBranch st1 keeper then
      (st1.filter (fun p => p.1 != keeper), m1 ++ [.deleted keeper], none)
    else (st1, m1, some (.branchNotFound keeper))
  else (st1, m1, none)

/-- The anchoring loop (src lines 186-188): for every changed-or-new
reference, create-or-force `keep-<sha>` at its resolved commit. -/
def anchorList (shaOf : Ref → String) : GitState → List Ref → GitState × List Mut
  | st, [] => (st, [])
  | st, r :: rs =>
    let (st1, m1) := setBranch st (keeperName (shaOf r)) (shaOf r)
    let (st2, m2) := anchorList shaOf st1 rs
    (st2, m1 ++ m2)

/-- The pruning loop (src lines 191-198) over the same references, stopping
at the first failing branch deletion. -/
def cleanupList (anc : String → String → Bool) (shaOf : Ref → String) :
    GitState → List Ref → GitState × List Mut × Option GitErr
  | st, [] => (st, [], none)
  | st, r :: rs =>
    match cleanupSha anc st (shaOf r) r.tag with
    | (st1, m1, some e) => (st1, m1, some e)
    | (st1, m1, none) =>
      let (st2, m2, e2) := cleanupList anc shaOf st1 rs
      (st2, m1 ++ m2, e2)

/-- The Retention Reconciler (src lines 185-198): first anchor every
changed-or-new reference, then run the pruning loop over them.  Returns the
final branch state, the effective branch mutations in order, and the first
branch-deletion failure if one occurred. -/
def reconcile (anc : String → String → Bool) (shaOf : Ref → String)
    (st : GitState) (refs : List Ref) : GitState × List Mut × Option GitErr :=
  let (st1, m1) := anchorList shaOf st refs
  let (st2, m2, e) := cleanupList anc shaOf st1 refs
  (st2, m1 ++ m2, e)

/-! ## The synchronization orchestrator `update`

The repository directory: the two substructure checks, and the
`gitarchive.sqlite3` file (`none` = the file does not exist).  Python's
`sqlite3` executes DDL in autocommit mode, so the `CREATE TABLE` of
`ensureSchema` is durable immediately, while the later `UPDATE`/`INSERT`
statements open an implicit transaction that only `conn.commit()` (src line
200) makes durable — an abort before it discards them. -/

/-- The target repository as `update` sees it. -/
structure Repo where
  hasRefs : Bool
  hasObjects : Bool
  dbFile : Option (List Row)
deriving DecidableEq, Repr

/-- The rows durably stored for the repository (none if the file is absent). -/
def rowsOf (repo : Repo) : List Row :=
  repo.dbFile.getD []

/-- Failures that abort an `update` pass. -/
inductive UpdateErr where
  | notARepo
  | fetchFailed
  | parseFailed (e : ParseErr)
  | shaFailed (ref : String)
  | branchDeleteFailed (b : String)
deriving DecidableEq, Repr

/-- The insert loop of `update` (src lines 175-183) with the fallible
`get_sha` call: abort at the first reference whose resolution fails. -/
def insertLoop (shaOf : String → Option String) (t : Nat) :
    List Row → List Ref → Except UpdateErr (List Row)
  | db, [] => .ok db
  | db, r :: rs =>
    match shaOf (ref_name r) with
    | none => .error (.shaFailed (ref_name r))
    | some s => insertLoop shaOf t (openNew db r.remote r.name t s r.tag) rs

/-- The anchoring loop (src lines 185-188) with the fallible `get_sha` call;
branch mutations before the failure persist. -/
def anchorLoopF (shaOf : String → Option String) :
    GitState → List Ref → GitState × Option UpdateErr
  | st, [] => (st, none)
  | st, r :: rs =>
    match shaOf (ref_name r) with
    | none => (st, some (.shaFailed (ref_name r)))
    | some s => anchorLoopF shaOf (setBranch st (keeperName s) s).1 rs

/-- The pruning loop (src lines 190-198) with the fallible `get_sha` call;
branch mutations before the failure persist. -/
def cleanupLoopF (anc : String → String → Bool) (shaOf : String → Option String) :
    GitState → List Ref → GitState × Option UpdateErr
  | st, [] => (st, none)
  | st, r :: rs =>
    match shaOf (ref_name r) with
    | none => (st, some (.shaFailed (ref_name r)))
    | some s =>
      match cleanupSha anc st s r.tag with
      | (st1, _, some (.branchNotFound b)) => (st1, some (.branchDeleteFailed b))
      | (st1, _, none) => cleanupLoopF anc shaOf st1 rs

/-- The state `update` leaves behind: the durable database state, the branch
state (branch mutations are never rolled back), and the failure if the pass
aborted. -/
structure UpdateResult where
  repo : Repo
  git : GitState
  err : Option UpdateErr
deriving Repr

/-- The `update` pass (src lines 133-200).  Inputs: the repository and branch
state, the fetch outcome (`none` = `git fetch` exited non-zero, otherwise the
captured report lines), the pass timestamp, the `git rev-parse` resolution,
and the reachability relation.  Steps: validate the bare-repository
substructure; open the store, creating the (immediately durable) empty table
if the file is absent; parse the fetch report; close and insert history rows
inside the transaction; anchor and prune branches; commit. -/
def update (repo : Repo) (git : GitState) (fetchOut : Option (List String))
    (time : Nat) (shaOf : String → Option String)
    (anc : String → String → Bool) : UpdateResult :=
  if !(repo.hasRefs && repo.hasObjects) then ⟨repo, git, some .notARepo⟩
  else
    let table := repo.dbFile.getD []
    let repo1 : Repo := { repo with dbFile := some table }
    match fetchOut with
    | none => ⟨repo1, git, some .fetchFailed⟩
    | some lines =>
      match parse_fetch_output lines with
      | .error e => ⟨repo1, git, some (.parseFailed e)⟩
      | .ok (news, changed, removed) =>
        let staged := (removed ++ changed).foldl
          (fun d r => closeOpen d r.remote r.name time) table
        match insertLoop shaOf time staged (changed ++ news) with
        | .error e => ⟨repo1, git, some e⟩
        | .ok staged2 =>
          match anchorLoopF shaOf git (changed ++ news) with
          | (git1, some e) => ⟨repo1, git1, some e⟩
          | (git1, none) =>
            match cleanupLoopF anc shaOf git1 (changed ++ news) with
            | (git2, some e) => ⟨repo1, git2, some e⟩
            | (git2, none) => ⟨{ repo1 with dbFile := some staged2 }, git2, none⟩

/-! ## Auxiliary decidable forms and concrete fixtures -/

/-- Does the classifier accept this line (bucket it or ignore it) without
raising? -/
def classifiesB (l : String) : Bool :=
  match classifyLine l with
  | .ok _ => true
  | .error _ => false

/-- Set `to_date := t` on the last row of a list (the unique open row of a
pair under the history invariant). -/
def closeLast (t : Nat) : List Row → List Row
  | [] => []
  | [r] => [{ r with to_date := some t }]
  | a :: b :: rest => a :: closeLast t (b :: rest)

/-- The branch reference `origin/br1` used by concrete scenarios. -/
def refBr1 : Ref := ⟨"origin", "br1", false⟩

/-- Scenario for the contiguity counterexample: `br1` appears (pass 1),
is pruned (pass 2), and re-appears (pass 3). -/
def seqGap : List PassInput :=
  [ ⟨[], [], [refBr1], 1, fun _ => "a"⟩,
    ⟨[refBr1], [], [], 2, fun _ => "a"⟩,
    ⟨[], [], [refBr1], 3, fun _ => "a"⟩ ]

/-- Reachability on the one-commit object store `{A}`. -/
def ancSingle : String → String → Bool :=
  fun a b => a == "A" && b == "A"

/-- Reachability on the two-commit chain `a → b` (`a` is the parent). -/
def ancChain : String → String → Bool :=
  fun x y => (x == "a" && (y == "a" || y == "b")) || (x == "b" && y == "b")

/-- A one-row table whose single row is closed. -/
def dbOneClosed : List Row := [⟨"origin", "br1", 1, some 2, "a", false⟩]

/-- The `from_date` of the last row of a list (0 when empty). -/
def lastFrom : List Row → Nat
  | [] => 0
  | [r] => r.from_date
  | _ :: b :: rest => lastFrom (b :: rest)

/-- Strictly increasing `from_date` along a row list. -/
def StrictFrom : List Row → Prop
  | [] => True
  | [_] => True
  | a :: b :: rest => a.from_date < b.from_date ∧ StrictFrom (b :: rest)

end Doublegit

/-! # Theorems -/

namespace Doublegit

section ParserClaims

/-- Any line matched by `_re_fetch` starts with a space followed by one of
the six recognized status characters; a line whose second character is not in
the class does not match at all. -/
theorem matchFetchLine_none_of_bad_status (l : String) (c : Char) (rest : List Char)
    (hl : l.data = ' ' :: c :: rest) (hc : c ∉ statusChars) :
    matchFetchLine l = none := by
  unfold matchFetchLine
  rw [hl]
  simp [hc]

/-- A line that does not match is classified as ignorable. -/
theorem classifyLine_none_of_bad_status (l : String) (c : Char) (rest : List Char)
    (hl : l.data = ' ' :: c :: rest) (hc : c ∉ statusChars) :
    classifyLine l = .ok none := by
  unfold classifyLine
  rw [matchFetchLine_none_of_bad_status l c rest hl hc]

/-- An ignored line contributes nothing to the parse of any report. -/
theorem parse_skips_ignored (l : String) (ls : List String)
    (hl : classifyLine l = .ok none) :
    parse_fetch_output (l :: ls) = parse_fetch_output ls := by
  cases h : parse_fetch_output ls with
  | error e => simp [parse_fetch_output, hl, h]
  | ok v => obtain ⟨n, c, r⟩ := v; simp [parse_fetch_output, hl, h]

/-- C7 counterexample.  The claim says a transition-shaped line with an
unrecognized status character makes the parser fail.  The line
`" = [up-to-date]      br1        -> origin/br1"` has the transition shape
(the same line with a recognized status character matches), its status
character `=` is unrecognized, yet the parser succeeds and ignores it:
`parse_fetch_output` returns empty buckets with no error. -/
theorem c7_counterexample :
    matchFetchLine " * [up-to-date]      br1        -> origin/br1" ≠ none ∧
    classifyLine " = [up-to-date]      br1        -> origin/br1" = .ok none ∧
    parse_fetch_output [" = [up-to-date]      br1        -> origin/br1"] = .ok ([], [], []) := by
  refine ⟨by decide, rfl, rfl⟩

/-- C7 amended: a report line whose status-character position holds a
character outside the recognized class `[+t*! -]` does not match the
transition shape at all — it is silently ignored (it produces no transition
and no error, and contributes nothing to the parse).  The defensive
unrecognized-symbol branch (`raise RuntimeError`) is unreachable because the
regular expression itself restricts the status character to the six
recognized ones. -/
theorem c7_unrecognized_status_ignored (l : String) (c : Char) (rest : List Char)
    (ls : List String)
    (hl : l.data = ' ' :: c :: rest) (hc : c ∉ statusChars) :
    matchFetchLine l = none ∧
    classifyLine l = .ok none ∧
    parse_fetch_output (l :: ls) = parse_fetch_output ls := by
  have h1 := matchFetchLine_none_of_bad_status l c rest hl hc
  have h2 := classifyLine_none_of_bad_status l c rest hl hc
  exact ⟨h1, h2, parse_skips_ignored l ls h2⟩

/-- Witness for `c7_unrecognized_status_ignored` at the `=` line. -/
theorem c7_unrecognized_status_ignored_witness :
    matchFetchLine " = a b -> c" = none ∧
    classifyLine " = a b -> c" = .ok none ∧
    parse_fetch_output [" = a b -> c", " t v1 -> v1"] = parse_fetch_output [" t v1 -> v1"] :=
  c7_unrecognized_status_ignored " = a b -> c" '=' (" a b -> c".data) [" t v1 -> v1"]
    (by decide) (by decide)

/-- C9 counterexample.  The claim's literal scenario A line
`" 673b728..466e90b  devel -> origin/devel"` (one leading space) does not
parse to one Changed transition: its status-character position holds `6`,
which is not in the class `[+t*! -]`, so the line is ignored and the report
parses to three empty buckets. -/
theorem c9_counterexample :
    parse_fetch_output [" 673b728..466e90b  devel -> origin/devel"] = .ok ([], [], []) ∧
    ¬ parse_fetch_output [" 673b728..466e90b  devel -> origin/devel"] =
        .ok ([], [(⟨"origin", "devel", false⟩ : Ref)], []) := by
  have h0 : parse_fetch_output [" 673b728..466e90b  devel -> origin/devel"] =
      .ok ([], [], []) := rfl
  refine ⟨h0, fun h => ?_⟩
  rw [h0] at h
  simp at h

/-- C9 amended.  The fast-forward report line carries its status character
(a blank) in column 2, so scenario A needs three leading spaces, as in the
repository's test fixture: `"   673b728..466e90b  devel -> origin/devel"`
parses to exactly one Changed transition `(origin, devel, not-tag)`, while
the claim's one-leading-space variant is ignored and yields no transition.
Scenarios B and C hold as claimed: the new-branch line parses to exactly one
New transition `(origin, master, not-tag)` and the deleted line to exactly
one Removed transition `(origin, old, not-tag)`. -/
theorem c9_literal_scenarios :
    parse_fetch_output ["   673b728..466e90b  devel -> origin/devel"] =
      .ok ([], [⟨"origin", "devel", false⟩], []) ∧
    parse_fetch_output [" * [new branch]      master     -> origin/master"] =
      .ok ([⟨"origin", "master", false⟩], [], []) ∧
    parse_fetch_output [" - [deleted]         (none)     -> origin/old"] =
      .ok ([], [], [⟨"origin", "old", false⟩]) ∧
    parse_fetch_output [" 673b728..466e90b  devel -> origin/devel"] = .ok ([], [], []) :=
  ⟨rfl, rfl, rfl, rfl⟩

/-- `parse_remote_ref` only builds non-tag references. -/
theorem parse_remote_ref_tag (ref rem : String) (r : Ref)
    (h : parse_remote_ref ref rem = .ok r) : r.tag = false := by
  unfold parse_remote_ref at h
  split at h
  · split_ifs at h
    · injection h with h'
      rw [← h']
  · exact absurd h (by simp)

/-- Exhaustive characterization of a successful line classification: either
the line does not match the transition shape and is ignored, or it matches
with one of the five static statuses and lands in the bucket that status
determines. -/
theorem classifyLine_cases (l : String) (v : Option Bucketed)
    (h : classifyLine l = .ok v) :
    (v = none ∧ matchFetchLine l = none) ∨
    ∃ op s f d rsn, matchFetchLine l = some (op, s, f, d, rsn) ∧
      ((op = '*' ∧ ∃ r, v = some (.toNew r)) ∨
       ((op = ' ' ∨ op = '+') ∧ ∃ r, v = some (.toChanged r) ∧ r.tag = false) ∨
       (op = '-' ∧ ∃ r, v = some (.toRemoved r)) ∨
       (op = 't' ∧ ∃ r, v = some (.toChanged r) ∧ r.tag = true)) := by
  unfold classifyLine at h
  cases hm : matchFetchLine l with
  | none =>
    rw [hm] at h
    injection h with h'
    exact Or.inl ⟨h'.symm, rfl⟩
  | some five =>
    obtain ⟨op, s, f, d, rsn⟩ := five
    rw [hm] at h
    dsimp only at h
    refine Or.inr ⟨op, s, f, d, rsn, rfl, ?_⟩
    split_ifs at h with h1 hsl h2 h3 hsl2 h4 h5
    · -- op = '*', destination has a slash
      cases hpr : parse_remote_ref d "origin" with
      | error e => rw [hpr] at h; exact absurd h (by simp [Except.map])
      | ok rr =>
        rw [hpr] at h
        simp only [Except.map] at h
        injection h with h'
        exact Or.inl ⟨h1, rr, h'.symm⟩
    · -- op = '*', destination is a tag name
      injection h with h'
      exact Or.inl ⟨h1, _, h'.symm⟩
    · -- fast-forward or forced update
      cases hpr : parse_remote_ref d "origin" with
      | error e => rw [hpr] at h; exact absurd h (by simp [Except.map])
      | ok rr =>
        rw [hpr] at h
        simp only [Except.map] at h
        injection h with h'
        exact Or.inr (Or.inl ⟨h2, rr, h'.symm, parse_remote_ref_tag d "origin" rr hpr⟩)
    · -- pruned, destination has a slash
      cases hpr : parse_remote_ref d "origin" with
      | error e => rw [hpr] at h; exact absurd h (by simp [Except.map])
      | ok rr =>
        rw [hpr] at h
        simp only [Except.map] at h
        injection h with h'
        exact Or.inr (Or.inr (Or.inl ⟨h3, rr, h'.symm⟩))
    · -- pruned tag
      injection h with h'
      exact Or.inr (Or.inr (Or.inl ⟨h3, _, h'.symm⟩))
    · -- tag update
      injection h with h'
      exact Or.inr (Or.inr (Or.inr ⟨h4, _, h'.symm, rfl⟩))

/-- A line in the `new` bucket classifies to exactly that bucket. -/
theorem bucketNew_eq_some (l : String) (r : Ref) (hb : bucketNew l = some r) :
    classifyLine l = .ok (some (.toNew r)) := by
  unfold bucketNew at hb
  cases h : classifyLine l with
  | error e => rw [h] at hb; exact absurd hb (by simp)
  | ok v =>
    rw [h] at hb
    cases v with
    | none => exact absurd hb (by simp)
    | some bk =>
      cases bk with
      | toNew x =>
        have hx : x = r := by dsimp only at hb; exact Option.some.inj hb
        rw [hx]
      | toChanged x => exact absurd hb (by simp)
      | toRemoved x => exact absurd hb (by simp)

/-- A `new`-bucket transition's tag flag is decided by the absence of a
namespace separator in the destination ref: a destination containing `/`
goes through `parse_remote_ref` (never a tag), a bare destination is
recorded as a tag. -/
theorem bucketNew_tag (l : String) (r : Ref) (hb : bucketNew l = some r) :
    ∃ s f d rsn, matchFetchLine l = some ('*', s, f, d, rsn) ∧
      (r.tag = true ↔ d.data.contains '/' = false) := by
  have h := bucketNew_eq_some l r hb
  unfold classifyLine at h
  cases hm : matchFetchLine l with
  | none =>
    rw [hm] at h
    exact absurd h (by simp)
  | some five =>
    obtain ⟨op, s, f, d, rsn⟩ := five
    rw [hm] at h
    dsimp only at h
    split_ifs at h with h1 hsl h2 h3 hsl2 h4 h5
    · -- op = '*', destination has a slash: parsed as a branch, not a tag
      cases hpr : parse_remote_ref d "origin" with
      | error e => rw [hpr] at h; exact absurd h (by simp [Except.map])
      | ok rr =>
        rw [hpr] at h
        simp only [Except.map, Function.comp] at h
        injection h with h2
        have h3 := Option.some.inj h2
        injection h3 with h4
        refine ⟨s, f, d, rsn, by rw [h1], ?_⟩
        rw [← h4, parse_remote_ref_tag d "origin" rr hpr]
        constructor
        · intro hcon
          exact absurd hcon (by simp)
        · intro hcf
          rw [hsl] at hcf
          exact absurd hcf (by simp)
    · -- op = '*', bare destination: a tag
      injection h with h2
      have h3 := Option.some.inj h2
      injection h3 with h4
      rw [Bool.not_eq_true] at hsl
      refine ⟨s, f, d, rsn, by rw [h1], ?_⟩
      rw [← h4]
      exact ⟨fun _ => hsl, fun _ => rfl⟩
    · -- fast-forward or forced update lands in `changed`, not `new`
      cases hpr : parse_remote_ref d "origin" with
      | error e => rw [hpr] at h; exact absurd h (by simp [Except.map])
      | ok rr =>
        rw [hpr] at h
        simp only [Except.map, Function.comp] at h
        exact absurd h (by simp)
    · -- pruned branch lands in `removed`
      cases hpr : parse_remote_ref d "origin" with
      | error e => rw [hpr] at h; exact absurd h (by simp [Except.map])
      | ok rr =>
        rw [hpr] at h
        simp only [Except.map, Function.comp] at h
        exact absurd h (by simp)
    · -- pruned tag lands in `removed`
      injection h with h2
      exact absurd (Option.some.inj h2) (by simp)
    · -- tag update lands in `changed`
      injection h with h2
      exact absurd (Option.some.inj h2) (by simp)

/-- A line in the `changed` bucket classifies to exactly that bucket. -/
theorem bucketChanged_eq_some (l : String) (r : Ref) (hb : bucketChanged l = some r) :
    classifyLine l = .ok (some (.toChanged r)) := by
  unfold bucketChanged at hb
  cases h : classifyLine l with
  | error e => rw [h] at hb; exact absurd hb (by simp)
  | ok v =>
    rw [h] at hb
    cases v with
    | none => exact absurd hb (by simp)
    | some bk =>
      cases bk with
      | toNew x => exact absurd hb (by simp)
      | toChanged x =>
        have hx : x = r := by dsimp only at hb; exact Option.some.inj hb
        rw [hx]
      | toRemoved x => exact absurd hb (by simp)

/-- A line in the `removed` bucket classifies to exactly that bucket. -/
theorem bucketRemoved_eq_some (l : String) (r : Ref) (hb : bucketRemoved l = some r) :
    classifyLine l = .ok (some (.toRemoved r)) := by
  unfold bucketRemoved at hb
  cases h : classifyLine l with
  | error e => rw [h] at hb; exact absurd hb (by simp)
  | ok v =>
    rw [h] at hb
    cases v with
    | none => exact absurd hb (by simp)
    | some bk =>
      cases bk with
      | toNew x => exact absurd hb (by simp)
      | toChanged x => exact absurd hb (by simp)
      | toRemoved x =>
        have hx : x = r := by dsimp only at hb; exact Option.some.inj hb
        rw [hx]

/-- When no line of a report raises, the parse succeeds and each bucket is
exactly the in-order `filterMap` of its per-line projection. -/
theorem parse_eq_filterMap (lines : List String)
    (h : ∀ l ∈ lines, classifiesB l = true) :
    parse_fetch_output lines =
      .ok (lines.filterMap bucketNew, lines.filterMap bucketChanged,
           lines.filterMap bucketRemoved) := by
  induction lines with
  | nil => rfl
  | cons l ls ih =>
    have hl : classifiesB l = true := h l (List.mem_cons_self _ _)
    have ih' := ih (fun x hx => h x (List.mem_cons_of_mem _ hx))
    unfold classifiesB at hl
    cases hcl : classifyLine l with
    | error e => rw [hcl] at hl; exact absurd hl (by simp)
    | ok b =>
      cases b with
      | none =>
        simp [parse_fetch_output, hcl, ih', List.filterMap_cons,
              bucketNew, bucketChanged, bucketRemoved]
      | some bk =>
        cases bk with
        | toNew x =>
          simp [parse_fetch_output, hcl, ih', List.filterMap_cons,
                bucketNew, bucketChanged, bucketRemoved]
        | toChanged x =>
          simp [parse_fetch_output, hcl, ih', List.filterMap_cons,
                bucketNew, bucketChanged, bucketRemoved]
        | toRemoved x =>
          simp [parse_fetch_output, hcl, ih', List.filterMap_cons,
                bucketNew, bucketChanged, bucketRemoved]

/-- C6: for every report none of whose lines raises, the parser returns the
three bucket sequences; each bucket is the order-preserving `filterMap` of
its per-line projection over the whole report, so input order is preserved
within each bucket, duplicate lines yield duplicate transitions, and a line
contributes to at most one bucket (no cross-bucket leakage).  Moreover the
bucket is determined by the status character: the `new` bucket only receives
`*` lines — with the transition marked as a tag exactly when the destination
carries no namespace separator — the `changed` bucket only fast-forward
(blank), forced-update (`+`) and tag-update (`t`) lines — with the
transition marked as a tag exactly for `t` — and the `removed` bucket only
pruned (`-`) lines.  The parser is a pure function, hence deterministic. -/
theorem c6_parser_buckets (lines : List String)
    (h : ∀ l ∈ lines, classifiesB l = true) :
    parse_fetch_output lines =
      .ok (lines.filterMap bucketNew, lines.filterMap bucketChanged,
           lines.filterMap bucketRemoved) ∧
    (∀ l r, bucketNew l = some r →
      ∃ s f d rsn, matchFetchLine l = some ('*', s, f, d, rsn) ∧
        (r.tag = true ↔ d.data.contains '/' = false)) ∧
    (∀ l r, bucketChanged l = some r →
      ∃ op s f d rsn, matchFetchLine l = some (op, s, f, d, rsn) ∧
        (op = ' ' ∨ op = '+' ∨ op = 't') ∧ (r.tag = true ↔ op = 't')) ∧
    (∀ l r, bucketRemoved l = some r →
      ∃ s f d rsn, matchFetchLine l = some ('-', s, f, d, rsn)) := by
  refine ⟨parse_eq_filterMap lines h, ?_, ?_, ?_⟩
  · intro l r hb
    exact bucketNew_tag l r hb
  · intro l r hb
    have hc := bucketChanged_eq_some l r hb
    rcases classifyLine_cases l _ hc with ⟨hv, _⟩ | ⟨op, s, f, d, rsn, hm, hcase⟩
    · exact absurd hv (by simp)
    · rcases hcase with ⟨_, r', hr'⟩ | ⟨hop, r', hr', htag⟩ | ⟨_, r', hr'⟩ | ⟨hop, r', hr', htag⟩
      · exact absurd hr' (by simp)
      · refine ⟨op, s, f, d, rsn, hm, ?_, ?_⟩
        · rcases hop with h' | h'
          · exact Or.inl h'
          · exact Or.inr (Or.inl h')
        · have hrr : r = r' := by simpa using hr'
          rw [hrr]
          constructor
          · intro ht; rw [htag] at ht; exact absurd ht (by simp)
          · intro hop'
            exfalso
            rcases hop with h' | h' <;> rw [h'] at hop' <;> exact absurd hop' (by decide)
      · exact absurd hr' (by simp)
      · refine ⟨op, s, f, d, rsn, hm, Or.inr (Or.inr hop), ?_⟩
        have hrr : r = r' := by simpa using hr'
        rw [hrr]
        simp [htag, hop]
  · intro l r hb
    have hc := bucketRemoved_eq_some l r hb
    rcases classifyLine_cases l _ hc with ⟨hv, _⟩ | ⟨op, s, f, d, rsn, hm, hcase⟩
    · exact absurd hv (by simp)
    · rcases hcase with ⟨_, r', hr'⟩ | ⟨_, r', hr', _⟩ | ⟨hop, r', hr'⟩ | ⟨_, r', hr', _⟩
      · exact absurd hr' (by simp)
      · exact absurd hr' (by simp)
      · exact ⟨s, f, d, rsn, by rw [hm, hop]⟩
      · exact absurd hr' (by simp)

/-- Witness for `c6_parser_buckets` at the repository's own fixture report. -/
theorem c6_parser_buckets_witness :
    parse_fetch_output
        ["Fetching origin",
         "From github.com:remram44/doublegit",
         " * [new branch]      master     -> origin/master",
         "   673b728..466e90b  devel      -> origin/devel",
         " - [deleted]         (none)     -> origin/old"] =
      .ok (["Fetching origin",
            "From github.com:remram44/doublegit",
            " * [new branch]      master     -> origin/master",
            "   673b728..466e90b  devel      -> origin/devel",
            " - [deleted]         (none)     -> origin/old"].filterMap bucketNew,
           ["Fetching origin",
            "From github.com:remram44/doublegit",
            " * [new branch]      master     -> origin/master",
            "   673b728..466e90b  devel      -> origin/devel",
            " - [deleted]         (none)     -> origin/old"].filterMap bucketChanged,
           ["Fetching origin",
            "From github.com:remram44/doublegit",
            " * [new branch]      master     -> origin/master",
            "   673b728..466e90b  devel      -> origin/devel",
            " - [deleted]         (none)     -> origin/old"].filterMap bucketRemoved) :=
  (c6_parser_buckets _ (by decide)).1

/-- A raising line aborts the whole parse with its error, provided the lines
before it do not raise (they are bucketed or ignored and cannot mask it). -/
theorem parse_error_after_clean (pre : List String) (l : String) (rest : List String)
    (e : ParseErr)
    (hpre : ∀ x ∈ pre, classifiesB x = true)
    (hl : classifyLine l = .error e) :
    parse_fetch_output (pre ++ l :: rest) = .error e := by
  induction pre with
  | nil => simp [parse_fetch_output, hl]
  | cons p ps ih =>
    have hp : classifiesB p = true := hpre p (List.mem_cons_self _ _)
    have ih' := ih (fun x hx => hpre x (List.mem_cons_of_mem _ hx))
    unfold classifiesB at hp
    cases hcp : classifyLine p with
    | error e' => rw [hcp] at hp; exact absurd hp (by simp)
    | ok b =>
      cases b with
      | none => simp [parse_fetch_output, hcp, ih']
      | some bk => cases bk <;> simp [parse_fetch_output, hcp, ih']

end ParserClaims

section OrchestratorClaims

/-- C4: whenever an `update` pass aborts with any failure — fetch exiting
non-zero, the parser raising (rejected ref, foreign remote, bad
destination), a `git rev-parse` failure during sha resolution, or a failing
branch deletion during branch maintenance — no transaction is committed and
the durable `refs` rows are exactly the rows before the pass: nothing
inserted and no `to_date` set.  (When the pass created the database file,
the durable content is the empty table, whose row set equals the previous
row set — empty.) -/
theorem c4_abort_preserves_rows (repo : Repo) (git : GitState)
    (fetchOut : Option (List String)) (t : Nat) (shaOf : String → Option String)
    (anc : String → String → Bool) (e : UpdateErr)
    (h : (update repo git fetchOut t shaOf anc).err = some e) :
    rowsOf (update repo git fetchOut t shaOf anc).repo = rowsOf repo := by
  cases hv : repo.hasRefs && repo.hasObjects with
  | false => simp [update, hv, rowsOf]
  | true =>
    cases fetchOut with
    | none => simp [update, hv, rowsOf]
    | some lines =>
      cases hp : parse_fetch_output lines with
      | error e' => simp [update, hv, hp, rowsOf]
      | ok triple =>
        obtain ⟨news, changed, removed⟩ := triple
        cases hins : insertLoop shaOf t
            (changed.foldl (fun d r => closeOpen d r.remote r.name t)
              (removed.foldl (fun d r => closeOpen d r.remote r.name t)
                (repo.dbFile.getD [])))
            (changed ++ news) with
        | error e' => simp [update, hv, hp, hins, rowsOf]
        | ok staged2 =>
          cases hanch : anchorLoopF shaOf git (changed ++ news) with
          | mk git1 oe =>
            cases oe with
            | some e' => simp [update, hv, hp, hins, hanch, rowsOf]
            | none =>
              cases hcl : cleanupLoopF anc shaOf git1 (changed ++ news) with
              | mk git2 oe2 =>
                cases oe2 with
                | some e' => simp [update, hv, hp, hins, hanch, hcl, rowsOf]
                | none =>
                  exfalso
                  simp [update, hv, hp, hins, hanch, hcl] at h

/-- Witness for `c4_abort_preserves_rows`: a failing fetch on a repository
whose table holds one row leaves exactly that row. -/
theorem c4_abort_preserves_rows_witness :
    rowsOf (update ⟨true, true, some dbOneClosed⟩ [] none 5 (fun _ => none) ancSingle).repo =
      rowsOf ⟨true, true, some dbOneClosed⟩ :=
  c4_abort_preserves_rows ⟨true, true, some dbOneClosed⟩ [] none 5 (fun _ => none)
    ancSingle .fetchFailed rfl

/-- C8: a report containing a rejected-update line for destination `d` — with
the lines before it parseable — makes the parse fail with the error naming
`d` (so no transition triple is produced at all), and the `update` pass
aborts with that error leaving the durable rows untouched: no history row is
inserted or closed for any reference of the pass. -/
theorem c8_rejected_aborts (repo : Repo) (git : GitState) (t : Nat)
    (shaOf : String → Option String) (anc : String → String → Bool)
    (pre : List String) (l : String) (rest : List String) (d : String)
    (hpre : ∀ x ∈ pre, classifiesB x = true)
    (hl : classifyLine l = .error (.rejected d))
    (hr : repo.hasRefs = true) (ho : repo.hasObjects = true) :
    parse_fetch_output (pre ++ l :: rest) = .error (.rejected d) ∧
    (update repo git (some (pre ++ l :: rest)) t shaOf anc).err =
      some (.parseFailed (.rejected d)) ∧
    rowsOf (update repo git (some (pre ++ l :: rest)) t shaOf anc).repo = rowsOf repo := by
  have hp := parse_error_after_clean pre l rest _ hpre hl
  refine ⟨hp, ?_, ?_⟩ <;> simp [update, hr, ho, hp, rowsOf]

/-- Witness for `c8_rejected_aborts`: a clean new-branch line followed by a
rejected line for `origin/x`. -/
theorem c8_rejected_aborts_witness :
    parse_fetch_output
        [" * [new branch]      br3        -> origin/br3",
         " ! [rejected]        master     -> origin/x  (non-fast-forward)"] =
      .error (.rejected "origin/x") ∧
    (update ⟨true, true, some dbOneClosed⟩ [] (some
        [" * [new branch]      br3        -> origin/br3",
         " ! [rejected]        master     -> origin/x  (non-fast-forward)"])
        7 (fun _ => some "A") ancSingle).err =
      some (.parseFailed (.rejected "origin/x")) ∧
    rowsOf (update ⟨true, true, some dbOneClosed⟩ [] (some
        [" * [new branch]      br3        -> origin/br3",
         " ! [rejected]        master     -> origin/x  (non-fast-forward)"])
        7 (fun _ => some "A") ancSingle).repo =
      rowsOf ⟨true, true, some dbOneClosed⟩ :=
  c8_rejected_aborts ⟨true, true, some dbOneClosed⟩ [] 7 (fun _ => some "A") ancSingle
    [" * [new branch]      br3        -> origin/br3"]
    " ! [rejected]        master     -> origin/x  (non-fast-forward)" [] "origin/x"
    (by decide) rfl rfl rfl

/-- C10: on a repository that passes validation but has no database file,
`update` creates the file with the empty `refs` table before invoking the
fetch (the DDL is executed in autocommit mode and is durable at once); when
the fetch then exits non-zero, the failure propagates, no rows exist, and
the freshly created file holding the empty table remains. -/
theorem c10_db_created_before_fetch (repo : Repo) (git : GitState) (t : Nat)
    (shaOf : String → Option String) (anc : String → String → Bool)
    (hr : repo.hasRefs = true) (ho : repo.hasObjects = true)
    (hdb : repo.dbFile = none) :
    (update repo git none t shaOf anc).err = some .fetchFailed ∧
    (update repo git none t shaOf anc).repo.dbFile = some [] ∧
    rowsOf (update repo git none t shaOf anc).repo = [] := by
  refine ⟨?_, ?_, ?_⟩ <;> simp [update, hr, ho, hdb, rowsOf]

/-- Witness for `c10_db_created_before_fetch`. -/
theorem c10_db_created_before_fetch_witness :
    (update ⟨true, true, none⟩ [] none 1 (fun _ => some "A") ancSingle).err =
        some .fetchFailed ∧
    (update ⟨true, true, none⟩ [] none 1 (fun _ => some "A") ancSingle).repo.dbFile =
        some [] ∧
    rowsOf (update ⟨true, true, none⟩ [] none 1 (fun _ => some "A") ancSingle).repo = [] :=
  c10_db_created_before_fetch ⟨true, true, none⟩ [] 1 (fun _ => some "A") ancSingle
    rfl rfl rfl

end OrchestratorClaims

section HistoryLemmas

/-- The close statement's `MAX(from_date)` only depends on the pair's rows. -/
theorem maxFrom_eq_pairRows (db : List Row) (R N : String) :
    maxFrom db R N = maxFrom (pairRows R N db) R N := by
  induction db with
  | nil => rfl
  | cons row rest ih =>
    simp only [pairRows] at ih
    by_cases hm : rowMatches R N row = true
    · simp [maxFrom, pairRows, List.filter_cons, hm, ih]
    · simp only [Bool.not_eq_true] at hm
      simp [maxFrom, pairRows, List.filter_cons, hm, ih]

/-- `setToFirst` commutes with restriction to the pair's rows. -/
theorem pairRows_setToFirst (R N : String) (m t : Nat) (db : List Row) :
    pairRows R N (setToFirst R N m t db) = setToFirst R N m t (pairRows R N db) := by
  induction db with
  | nil => rfl
  | cons row rest ih =>
    simp only [pairRows] at ih
    by_cases h1 : rowMatches R N row = true
    · have hm' : rowMatches R N { row with to_date := some t } = true := by
        simpa [rowMatches] using h1
      by_cases h2 : (row.from_date == m) = true
      · simp [setToFirst, pairRows, List.filter_cons, h1, h2, hm']
      · simp only [Bool.not_eq_true] at h2
        simp [setToFirst, pairRows, List.filter_cons, h1, h2, ih]
    · simp only [Bool.not_eq_true] at h1
      simp [setToFirst, pairRows, List.filter_cons, h1, ih]

/-- `setToFirst` never touches the rows of other pairs. -/
theorem antiRows_setToFirst (R N : String) (m t : Nat) (db : List Row) :
    (setToFirst R N m t db).filter (fun r => !(rowMatches R N r)) =
      db.filter (fun r => !(rowMatches R N r)) := by
  induction db with
  | nil => rfl
  | cons row rest ih =>
    by_cases h1 : rowMatches R N row = true

    · have hm' : rowMatches R N { row with to_date := some t } = true := by
        simpa [rowMatches] using h1
      by_cases h2 : (row.from_date == m) = true
      · simp [setToFirst, List.filter_cons, h1, h2, hm']
      · simp only [Bool.not_eq_true] at h2
        simp [setToFirst, List.filter_cons, h1, h2, ih]
    · simp only [Bool.not_eq_true] at h1
      simp [setToFirst, List.filter_cons, h1, ih]

/-- `closeOpen` never touches the rows of other pairs. -/
theorem antiRows_closeOpen (db : List Row) (R N : String) (t : Nat) :
    (closeOpen db R N t).filter (fun r => !(rowMatches R N r)) =
      db.filter (fun r => !(rowMatches R N r)) := by
  unfold closeOpen
  cases maxFrom db R N with
  | none => rfl
  | some m => exact antiRows_setToFirst R N m t db

/-- `setToFirst` for one pair leaves another pair's row view unchanged. -/
theorem pairRows_setToFirst_other (R N R' N' : String) (m t : Nat) (db : List Row)
    (h : ¬(R' = R ∧ N' = N)) :
    pairRows R N (setToFirst R' N' m t db) = pairRows R N db := by
  induction db with
  | nil => rfl
  | cons row rest ih =>
    by_cases hc0 : (rowMatches R' N' row && row.from_date == m) = true
    · have hcp : rowMatches R' N' row = true ∧ row.from_date = m := by
        simpa using hc0
      have hboth : rowMatches R N row = false := by
        have hrn : row.remote = R' ∧ row.name = N' := by
          simpa [rowMatches] using hcp.1
        by_contra hmm
        rw [Bool.not_eq_false] at hmm
        have hrn2 : row.remote = R ∧ row.name = N := by
          simpa [rowMatches] using hmm
        exact h ⟨hrn.1.symm.trans hrn2.1, hrn.2.symm.trans hrn2.2⟩
      have hboth' : ∀ td fd,
          rowMatches R N { row with from_date := fd, to_date := td } = false :=
        fun td fd => by simpa [rowMatches] using hboth
      simp [setToFirst, pairRows, List.filter_cons, hcp.1, hcp.2, hboth, hboth']
    · simp only [Bool.not_eq_true] at hc0
      simp only [pairRows] at ih
      simp [setToFirst, pairRows, List.filter_cons, hc0, ih]

/-- `closeOpen` for one pair leaves another pair's row view unchanged. -/
theorem pairRows_closeOpen_other (db : List Row) (R N R' N' : String) (t : Nat)
    (h : ¬(R' = R ∧ N' = N)) :
    pairRows R N (closeOpen db R' N' t) = pairRows R N db := by
  unfold closeOpen
  cases maxFrom db R' N' with
  | none => rfl
  | some m => exact pairRows_setToFirst_other R N R' N' m t db h

/-- `closeOpen` on the full table projects to `closeOpen` on the pair's rows. -/
theorem pairRows_closeOpen_self (db : List Row) (R N : String) (t : Nat) :
    pairRows R N (closeOpen db R N t) = closeOpen (pairRows R N db) R N t := by
  unfold closeOpen
  rw [maxFrom_eq_pairRows]
  cases maxFrom (pairRows R N db) R N with
  | none => rfl
  | some m => exact pairRows_setToFirst R N m t db

/-- Every row of the pair view matches the pair. -/
theorem pairRows_all_match (R N : String) (db : List Row) :
    ∀ r ∈ pairRows R N db, rowMatches R N r = true :=
  fun r hr => (List.mem_filter.mp hr).2

/-- The history invariant forces strictly increasing `from_date`. -/
theorem rowsInv_strictFrom : ∀ (l : List Row) (T : Nat) (live : Bool),
    RowsInv l T live → StrictFrom l
  | [], _, _, _ => trivial
  | [_], _, _, _ => trivial
  | _ :: b :: rest, T, live, h =>
    ⟨h.2.1, rowsInv_strictFrom (b :: rest) T live h.2.2⟩

/-- Every `from_date` of a strictly increasing list is at most the last. -/
theorem lastFrom_bound : ∀ (l : List Row), StrictFrom l →
    ∀ r ∈ l, r.from_date ≤ lastFrom l
  | [], _, r, hr => absurd hr (List.not_mem_nil r)
  | [a], _, r, hr => by
    rcases List.mem_singleton.mp hr with rfl
    exact Nat.le_refl _
  | a :: b :: rest, hs, r, hr => by
    rcases List.mem_cons.mp hr with rfl | hr'
    · have hb : b.from_date ≤ lastFrom (b :: rest) :=
        lastFrom_bound (b :: rest) hs.2 b (List.mem_cons_self _ _)
      exact Nat.le_trans (Nat.le_of_lt hs.1) (by simpa [lastFrom] using hb)
    · have := lastFrom_bound (b :: rest) hs.2 r hr'
      simpa [lastFrom] using this

/-- Unfolding equation of `maxFrom` on a cons cell. -/
theorem maxFrom_cons (row : Row) (rest : List Row) (R N : String) :
    maxFrom (row :: rest) R N =
      if rowMatches R N row then
        (match maxFrom rest R N with
         | none => some row.from_date
         | some v => some (max row.from_date v))
      else maxFrom rest R N := rfl

/-- On a nonempty all-matching strictly increasing list, `MAX(from_date)` is
the last row's `from_date`. -/
theorem maxFrom_strict : ∀ (l : List Row) (R N : String), l ≠ [] →
    (∀ r ∈ l, rowMatches R N r = true) → StrictFrom l →
    maxFrom l R N = some (lastFrom l)
  | [], _, _, hne, _, _ => absurd rfl hne
  | [a], R, N, _, hall, _ => by
    have := hall a (List.mem_singleton.mpr rfl)
    simp [maxFrom, lastFrom, this]
  | a :: b :: rest, R, N, _, hall, hs => by
    have ha := hall a (List.mem_cons_self _ _)
    have ih := maxFrom_strict (b :: rest) R N (by simp)
      (fun r hr => hall r (List.mem_cons_of_mem _ hr)) hs.2
    have hb : b.from_date ≤ lastFrom (b :: rest) :=
      lastFrom_bound (b :: rest) hs.2 b (List.mem_cons_self _ _)
    have hle : a.from_date ≤ lastFrom (b :: rest) :=
      Nat.le_trans (Nat.le_of_lt hs.1) hb
    show maxFrom (a :: b :: rest) R N = some (lastFrom (b :: rest))
    rw [maxFrom_cons, ih]
    simp [ha, max_eq_right hle]

/-- Unfolding equation of `setToFirst` on a cons cell. -/
theorem setToFirst_cons (row : Row) (rest : List Row) (R N : String) (m t : Nat) :
    setToFirst R N m t (row :: rest) =
      if rowMatches R N row && row.from_date == m then
        { row with to_date := some t } :: rest
      else row :: setToFirst R N m t rest := rfl

/-- On a nonempty all-matching strictly increasing list, the close statement
updates exactly the last row. -/
theorem setToFirst_strict : ∀ (l : List Row) (R N : String) (t : Nat), l ≠ [] →
    (∀ r ∈ l, rowMatches R N r = true) → StrictFrom l →
    setToFirst R N (lastFrom l) t l = closeLast t l
  | [], _, _, _, hne, _, _ => absurd rfl hne
  | [a], R, N, t, _, hall, _ => by
    have := hall a (List.mem_singleton.mpr rfl)
    simp [setToFirst, closeLast, lastFrom, this]
  | a :: b :: rest, R, N, t, _, hall, hs => by
    have hb : b.from_date ≤ lastFrom (b :: rest) :=
      lastFrom_bound (b :: rest) hs.2 b (List.mem_cons_self _ _)
    have hlt : a.from_date < lastFrom (b :: rest) := Nat.lt_of_lt_of_le hs.1 hb
    have hne2 : (a.from_date == lastFrom (b :: rest)) = false := by
      simp [Nat.ne_of_lt hlt]
    have ih := setToFirst_strict (b :: rest) R N t (by simp)
      (fun r hr => hall r (List.mem_cons_of_mem _ hr)) hs.2
    show setToFirst R N (lastFrom (b :: rest)) t (a :: b :: rest) =
      a :: closeLast t (b :: rest)
    rw [setToFirst_cons]
    simp only [hne2, Bool.and_false, Bool.false_eq_true, if_false]
    rw [ih]

/-- The close statement on a nonempty all-matching strictly increasing list
closes the last row. -/
theorem closeOpen_strict (l : List Row) (R N : String) (t : Nat) (hne : l ≠ [])
    (hall : ∀ r ∈ l, rowMatches R N r = true) (hs : StrictFrom l) :
    closeOpen l R N t = closeLast t l := by
  unfold closeOpen
  rw [maxFrom_strict l R N hne hall hs]
  exact setToFirst_strict l R N t hne hall hs

/-- Under the live invariant, the pair view is nonempty and its last row is
the open one. -/
theorem rowsInv_live_lastOpen : ∀ (l : List Row) (T : Nat),
    RowsInv l T true → l ≠ [] ∧ ∃ x, l.getLast? = some x ∧ x.to_date = none
  | [], _, h => absurd h (by simp [RowsInv])
  | [a], T, h => by
    refine ⟨by simp, a, rfl, ?_⟩
    rcases h with ⟨_, h2⟩
    cases hto : a.to_date with
    | none => rfl
    | some u => rw [hto] at h2; exact absurd h2.2.2 (by simp)
  | a :: b :: rest, T, h => by
    obtain ⟨hne, x, hx, hopen⟩ := rowsInv_live_lastOpen (b :: rest) T h.2.2
    exact ⟨by simp, x, by rw [List.getLast?_cons_cons]; exact hx, hopen⟩

/-- C5 counterexample.  The claim says the close step is a no-op when the
pair has no open row.  On a table whose single `(origin,br1)` row is closed,
every row has a `to_date`, yet `closeOpen` is not a no-op: it overwrites the
`to_date` of the latest (closed) row. -/
theorem c5_counterexample :
    dbOneClosed.all (fun r => r.to_date.isSome) = true ∧
    closeOpen dbOneClosed "origin" "br1" 3 ≠ dbOneClosed ∧
    closeOpen dbOneClosed "origin" "br1" 3 =
      [⟨"origin", "br1", 1, some 3, "a", false⟩] := by
  refine ⟨rfl, ?_, rfl⟩
  intro h
  have := congrArg (fun l => (l.head?.map Row.to_date)) h
  simp [closeOpen, dbOneClosed, maxFrom, setToFirst, rowMatches] at this

/-- C5 amended.  The close step (`UPDATE ... ORDER BY from_date DESC LIMIT
1`) targets the row with the greatest `from_date` among the pair's rows, not
"the open row": it is a no-op exactly when the pair has no row at all, and
under the history invariant for a live pair — strictly increasing
`from_date` with the single open row positioned last — the targeted row is
that open row, which gets `to_date := t`; rows of all other pairs are never
touched.  (When the pair has only closed rows the statement is not a no-op —
see the counterexample.) -/
theorem c5_close_latest (db : List Row) (R N : String) (t T : Nat) :
    (pairRows R N db = [] → closeOpen db R N t = db) ∧
    (RowsInv (pairRows R N db) T true →
      pairRows R N (closeOpen db R N t) = closeLast t (pairRows R N db) ∧
      (∃ x, (pairRows R N db).getLast? = some x ∧ x.to_date = none) ∧
      (closeOpen db R N t).filter (fun r => !(rowMatches R N r)) =
        db.filter (fun r => !(rowMatches R N r))) := by
  constructor
  · intro hempty
    unfold closeOpen
    rw [maxFrom_eq_pairRows, hempty]
    rfl
  · intro hinv
    obtain ⟨hne, x, hx, hopen⟩ := rowsInv_live_lastOpen _ _ hinv
    refine ⟨?_, ⟨x, hx, hopen⟩, antiRows_closeOpen db R N t⟩
    rw [pairRows_closeOpen_self]
    exact closeOpen_strict _ R N t hne (pairRows_all_match R N db)
      (rowsInv_strictFrom _ T true hinv)

/-- Witness for `c5_close_latest`: the no-row no-op at an empty table, and
the close-the-open-row behaviour at a one-row live table. -/
theorem c5_close_latest_witness :
    closeOpen [] "origin" "brX" 9 = [] ∧
    pairRows "origin" "br1"
        (closeOpen [(⟨"origin", "br1", 1, none, "a", false⟩ : Row)] "origin" "br1" 3) =
      closeLast 3 (pairRows "origin" "br1" [(⟨"origin", "br1", 1, none, "a", false⟩ : Row)]) :=
  ⟨(c5_close_latest [] "origin" "brX" 9 0).1 rfl,
   ((c5_close_latest [(⟨"origin", "br1", 1, none, "a", false⟩ : Row)] "origin" "br1" 3 1).2
      (by simp [pairRows, rowMatches, RowsInv])).1⟩

end HistoryLemmas

section HistoryInvariant

/-- `occ` over an append. -/
theorem occ_append (R N : String) (l1 l2 : List Ref) :
    occ R N (l1 ++ l2) = occ R N l1 + occ R N l2 :=
  List.countP_append _ _ _

/-- The close fold projected onto a pair: untouched when the pair does not
occur in the reference list, a single close when it occurs once. -/
theorem pairRows_closeFold (R N : String) (t : Nat) :
    ∀ (L : List Ref) (db : List Row), occ R N L ≤ 1 →
    pairRows R N (L.foldl (fun d r => closeOpen d r.remote r.name t) db) =
      (if occ R N L = 0 then pairRows R N db else closeOpen (pairRows R N db) R N t)
  | [], db, _ => by simp [occ]
  | r :: rs, db, h => by
    have hocc : occ R N (r :: rs) =
        occ R N rs + if (r.remote == R && r.name == N) then 1 else 0 :=
      List.countP_cons _ _ _
    by_cases hr : (r.remote == R && r.name == N) = true
    · obtain ⟨hR, hN⟩ : r.remote = R ∧ r.name = N := by simpa using hr
      have hrs : occ R N rs = 0 := by
        rw [hocc, if_pos hr] at h
        omega
      have ih := pairRows_closeFold R N t rs (closeOpen db r.remote r.name t)
        (by omega)
      rw [List.foldl_cons, ih, if_pos hrs, hocc, if_pos hr, hrs]
      rw [hR, hN, pairRows_closeOpen_self]
      simp
    · have hne : ¬(r.remote = R ∧ r.name = N) := by
        intro hcon
        exact hr (by simp [hcon.1, hcon.2])
      have hproj := pairRows_closeOpen_other db R N r.remote r.name t hne
      have hle : occ R N rs ≤ 1 := by
        rw [hocc, if_neg hr] at h
        omega
      have ih := pairRows_closeFold R N t rs (closeOpen db r.remote r.name t) hle
      rw [List.foldl_cons, ih, hproj, hocc, if_neg hr]
      simp

/-- Appending a row for one pair, viewed from any pair. -/
theorem pairRows_openNew (R N R' N' : String) (t : Nat) (s : String) (tg : Bool)
    (db : List Row) :
    pairRows R N (openNew db R' N' t s tg) =
      pairRows R N db ++
        (if R' == R && N' == N then [⟨R', N', t, none, s, tg⟩] else []) := by
  unfold openNew pairRows
  rw [List.filter_append]
  congr 1
  have : rowMatches R N (⟨R', N', t, none, s, tg⟩ : Row) = (R' == R && N' == N) := rfl
  by_cases h : (R' == R && N' == N) = true
  · simp [List.filter_singleton, this, h]
  · simp only [Bool.not_eq_true] at h
    simp [List.filter_singleton, this, h]

/-- The insert fold projected onto a pair: untouched when the pair does not
occur, one appended open row at the pass time when it occurs once. -/
theorem pairRows_insertFold (R N : String) (t : Nat) (shaOf : Ref → String) :
    ∀ (L : List Ref) (db : List Row), occ R N L ≤ 1 →
    (occ R N L = 0 ∧
      pairRows R N (L.foldl
        (fun d r => openNew d r.remote r.name t (shaOf r) r.tag) db) =
        pairRows R N db) ∨
    (occ R N L = 1 ∧ ∃ s tg,
      pairRows R N (L.foldl
        (fun d r => openNew d r.remote r.name t (shaOf r) r.tag) db) =
        pairRows R N db ++ [⟨R, N, t, none, s, tg⟩])
  | [], db, _ => Or.inl ⟨rfl, rfl⟩
  | r :: rs, db, h => by
    have hocc : occ R N (r :: rs) =
        occ R N rs + if (r.remote == R && r.name == N) then 1 else 0 :=
      List.countP_cons _ _ _
    by_cases hr : (r.remote == R && r.name == N) = true
    · obtain ⟨hR, hN⟩ : r.remote = R ∧ r.name = N := by simpa using hr
      have hrs : occ R N rs = 0 := by
        rw [hocc, if_pos hr] at h
        omega
      have hproj := pairRows_openNew R N r.remote r.name t (shaOf r) r.tag db
      rw [if_pos hr] at hproj
      rcases pairRows_insertFold R N t shaOf rs
          (openNew db r.remote r.name t (shaOf r) r.tag) (by omega) with
        ⟨_, heq⟩ | ⟨hone, _⟩
      · refine Or.inr ⟨by rw [hocc, if_pos hr, hrs], shaOf r, r.tag, ?_⟩
        rw [List.foldl_cons, heq, hproj, hR, hN]
      · rw [hrs] at hone
        exact absurd hone (by simp)
    · have hne : ¬(r.remote = R ∧ r.name = N) := by
        intro hcon
        exact hr (by simp [hcon.1, hcon.2])
      have hproj := pairRows_openNew R N r.remote r.name t (shaOf r) r.tag db
      rw [if_neg hr, List.append_nil] at hproj
      have hle : occ R N rs ≤ 1 := by
        rw [hocc, if_neg hr] at h
        omega
      rcases pairRows_insertFold R N t shaOf rs
          (openNew db r.remote r.name t (shaOf r) r.tag) hle with
        ⟨hz, heq⟩ | ⟨hone, s, tg, heq⟩
      · exact Or.inl ⟨by rw [hocc, if_neg hr, hz], by rw [List.foldl_cons, heq, hproj]⟩
      · exact Or.inr ⟨by rw [hocc, if_neg hr, hone],
          s, tg, by rw [List.foldl_cons, heq, hproj]⟩

/-- Clock monotonicity of the invariant. -/
theorem rowsInv_mono : ∀ (l : List Row) (T T' : Nat) (live : Bool),
    RowsInv l T live → T ≤ T' → RowsInv l T' live
  | [], _, _, _, h, _ => h
  | [a], T, T', live, h, hT => by
    obtain ⟨h1, h2⟩ := h
    refine ⟨Nat.le_trans h1 hT, ?_⟩
    cases hto : a.to_date with
    | none => rw [hto] at h2; exact h2
    | some u =>
      rw [hto] at h2
      exact ⟨h2.1, Nat.le_trans h2.2.1 hT, h2.2.2⟩
  | a :: b :: rest, T, T', live, h, hT =>
    ⟨h.1, h.2.1, rowsInv_mono (b :: rest) T T' live h.2.2 hT⟩

/-- Appending a fresh open row at a strictly later time (the New case). -/
theorem rowsInv_append_open : ∀ (l : List Row) (T t : Nat) (row : Row),
    RowsInv l T false → T < t → row.from_date = t → row.to_date = none →
    RowsInv (l ++ [row]) t true
  | [], _, t, row, _, _, hf, ht => by
    rw [List.nil_append]
    exact ⟨by rw [hf], by rw [ht]⟩
  | [a], T, t, row, h, hTt, hf, ht => by
    obtain ⟨hfT, h2⟩ := h
    cases hto : a.to_date with
    | none => rw [hto] at h2; exact absurd h2 (by simp)
    | some u =>
      rw [hto] at h2
      refine ⟨⟨u, hto, h2.1, ?_⟩, ?_, ⟨by rw [hf], by rw [ht]⟩⟩
      · rw [hf]; exact Nat.le_trans h2.2.1 (Nat.le_of_lt hTt)
      · rw [hf]; exact Nat.lt_of_le_of_lt hfT hTt
  | a :: b :: rest, T, t, row, h, hTt, hf, ht => by
    have ih := rowsInv_append_open (b :: rest) T t row h.2.2 hTt hf ht
    rw [List.cons_append] at ih
    rw [List.cons_append, List.cons_append]
    exact ⟨h.1, h.2.1, ih⟩

/-- Closing the open last row at a strictly later time (the Removed case). -/
theorem rowsInv_closeLast : ∀ (l : List Row) (T t : Nat),
    RowsInv l T true → T < t → RowsInv (closeLast t l) t false
  | [], _, _, h, _ => absurd h (by simp [RowsInv])
  | [a], T, t, h, hTt => by
    obtain ⟨hfT, _⟩ := h
    have hft : a.from_date ≤ t := Nat.le_trans hfT (Nat.le_of_lt hTt)
    exact ⟨hft, hft, Nat.le_refl t, rfl⟩
  | a :: b :: rest, T, t, h, hTt => by
    cases rest with
    | nil => exact ⟨h.1, h.2.1, rowsInv_closeLast [b] T t h.2.2 hTt⟩
    | cons c cs =>
      exact ⟨h.1, h.2.1, rowsInv_closeLast (b :: c :: cs) T t h.2.2 hTt⟩

/-- Closing the open last row and appending a fresh open row at the same,
strictly later, time (the Changed case). -/
theorem rowsInv_changed : ∀ (l : List Row) (T t : Nat) (row : Row),
    RowsInv l T true → T < t → row.from_date = t → row.to_date = none →
    RowsInv (closeLast t l ++ [row]) t true
  | [], _, _, _, h, _, _, _ => absurd h (by simp [RowsInv])
  | [a], T, t, row, h, hTt, hf, ht => by
    obtain ⟨hfT, _⟩ := h
    have hft : a.from_date ≤ t := Nat.le_trans hfT (Nat.le_of_lt hTt)
    refine ⟨⟨t, rfl, hft, by rw [hf]⟩, ?_, ⟨by rw [hf], by rw [ht]⟩⟩
    rw [hf]
    exact Nat.lt_of_le_of_lt hfT hTt
  | a :: b :: rest, T, t, row, h, hTt, hf, ht => by
    cases rest with
    | nil =>
      have ih := rowsInv_changed [b] T t row h.2.2 hTt hf ht
      exact ⟨h.1, h.2.1, ih⟩
    | cons c cs =>
      have ih := rowsInv_changed (b :: c :: cs) T t row h.2.2 hTt hf ht
      have hstep : closeLast t (a :: b :: c :: cs) ++ [row] =
          a :: (closeLast t (b :: c :: cs) ++ [row]) := by
        simp [closeLast]
      rw [hstep]
      have hexp : closeLast t (b :: c :: cs) ++ [row] =
          b :: (closeLast t (c :: cs) ++ [row]) := by
        simp [closeLast]
      rw [hexp]
      rw [hexp] at ih
      exact ⟨h.1, h.2.1, ih⟩

/-- The invariant entails the decidable ordered-history soundness check. -/
theorem rowsInv_historyOk : ∀ (l : List Row) (T : Nat) (live : Bool),
    RowsInv l T live → historyOkB l = true
  | [], _, _, _ => rfl
  | [a], T, live, h => by
    cases hto : a.to_date with
    | none => simp [historyOkB, hto]
    | some u =>
      obtain ⟨_, h2⟩ := h
      rw [hto] at h2
      simp [historyOkB, hto, h2.1]
  | a :: b :: rest, T, live, h => by
    obtain ⟨⟨u, hu, hau, hub⟩, hab, h3⟩ := h
    simp [historyOkB, hu, hau, hub, hab,
      rowsInv_historyOk (b :: rest) T live h3]

/-- The per-pass invariant step for one pair on a live clock. -/
theorem rowsInv_pass (R N : String) (db : List Row) (p : PassInput) (T : Nat)
    (live : Bool)
    (hinv : RowsInv (pairRows R N db) T live)
    (hvp : validPassB R N p live = true) (hT : T < p.time) :
    RowsInv (pairRows R N (applyPass db p)) p.time (liveAfter R N p live) := by
  have hvp' := hvp
  unfold validPassB at hvp'
  simp only [Bool.and_eq_true, Bool.or_eq_true, decide_eq_true_eq,
    Bool.not_eq_true'] at hvp'
  obtain ⟨⟨hsum, hlive1⟩, hlive2⟩ := hvp'
  unfold applyPass
  have hca : occ R N (p.removed ++ p.changed) =
      occ R N p.removed + occ R N p.changed := occ_append _ _ _ _
  have hcb : occ R N (p.changed ++ p.news) =
      occ R N p.changed + occ R N p.news := occ_append _ _ _ _
  have hclose := pairRows_closeFold R N p.time (p.removed ++ p.changed) db
    (by rw [hca]; omega)
  have hinsert := pairRows_insertFold R N p.time p.shaOf (p.changed ++ p.news)
    ((p.removed ++ p.changed).foldl
      (fun d r => closeOpen d r.remote r.name p.time) db)
    (by rw [hcb]; omega)
  rcases hinsert with ⟨hz, heq⟩ | ⟨hone, s, tg, heq⟩
  · -- no insert for the pair: the pass either ignores it or removes it
    rw [heq, hclose]
    rw [hcb] at hz
    by_cases hrem : occ R N p.removed = 0
    · -- untouched
      have hc0 : occ R N p.changed = 0 := by omega
      rw [if_pos (by rw [hca]; omega)]
      unfold liveAfter
      rw [if_neg (by omega), if_neg (by omega)]
      exact rowsInv_mono _ T p.time live hinv (Nat.le_of_lt hT)
    · -- removed once
      have hr1 : occ R N p.removed = 1 := by omega
      have hlv : live = true := by
        rcases hlive1 with h0 | h1
        · omega
        · exact h1
      rw [hlv] at hinv
      rw [if_neg (by rw [hca]; omega)]
      obtain ⟨hne, _⟩ := rowsInv_live_lastOpen _ _ hinv
      rw [closeOpen_strict _ R N p.time hne (pairRows_all_match R N db)
        (rowsInv_strictFrom _ T true hinv)]
      unfold liveAfter
      rw [if_pos (by omega)]
      exact rowsInv_closeLast _ T p.time hinv hT
  · -- one insert for the pair: Changed or New
    rw [heq, hclose]
    rw [hcb] at hone
    by_cases hch : occ R N p.changed = 1
    · -- changed once
      have hlv : live = true := by
        rcases hlive1 with h0 | h1
        · omega
        · exact h1
      rw [hlv] at hinv
      rw [if_neg (by rw [hca]; omega)]
      obtain ⟨hne, _⟩ := rowsInv_live_lastOpen _ _ hinv
      rw [closeOpen_strict _ R N p.time hne (pairRows_all_match R N db)
        (rowsInv_strictFrom _ T true hinv)]
      unfold liveAfter
      rw [if_neg (by omega), if_pos (by omega)]
      exact rowsInv_changed _ T p.time _ hinv hT rfl rfl
    · -- new once
      have hnw : occ R N p.news = 1 := by omega
      have hlv : live = false := by
        rcases hlive2 with h0 | h1
        · omega
        · exact h1
      rw [hlv] at hinv
      rw [if_pos (by rw [hca]; omega)]
      unfold liveAfter
      rw [if_neg (by omega), if_pos (by omega)]
      exact rowsInv_append_open _ T p.time _ hinv hT rfl rfl

/-- The per-pass invariant step from an empty pair view (no clock yet). -/
theorem rowsInv_pass_empty (R N : String) (db : List Row) (p : PassInput)
    (hpr : pairRows R N db = []) (hvp : validPassB R N p false = true) :
    RowsInv (pairRows R N (applyPass db p)) p.time (liveAfter R N p false) := by
  have hvp' := hvp
  unfold validPassB at hvp'
  simp only [Bool.and_eq_true, Bool.or_eq_true, decide_eq_true_eq,
    Bool.not_eq_true'] at hvp'
  obtain ⟨⟨hsum, hlive1⟩, _⟩ := hvp'
  have hrc : occ R N p.removed + occ R N p.changed = 0 := by
    rcases hlive1 with h0 | h1
    · exact h0
    · exact absurd h1 (by simp)
  unfold applyPass
  have hca : occ R N (p.removed ++ p.changed) =
      occ R N p.removed + occ R N p.changed := occ_append _ _ _ _
  have hcb : occ R N (p.changed ++ p.news) =
      occ R N p.changed + occ R N p.news := occ_append _ _ _ _
  have hclose := pairRows_closeFold R N p.time (p.removed ++ p.changed) db
    (by rw [hca]; omega)
  rw [if_pos (by rw [hca]; omega)] at hclose
  have hinsert := pairRows_insertFold R N p.time p.shaOf (p.changed ++ p.news)
    ((p.removed ++ p.changed).foldl
      (fun d r => closeOpen d r.remote r.name p.time) db)
    (by rw [hcb]; omega)
  rcases hinsert with ⟨hz, heq⟩ | ⟨_, s, tg, heq⟩
  · rw [heq, hclose, hpr]
    rw [hcb] at hz
    unfold liveAfter
    rw [if_neg (by omega), if_neg (by omega)]
    rfl
  · rw [heq, hclose, hpr, List.nil_append]
    unfold liveAfter
    rw [if_neg (by omega), if_pos (by omega)]
    exact ⟨Nat.le_refl _, rfl⟩

/-- The invariant carried along a valid pass sequence. -/
theorem rowsInv_seq (R N : String) : ∀ (ps : List PassInput) (db : List Row)
    (T : Nat) (live : Bool),
    RowsInv (pairRows R N db) T live →
    validSeqB R N ps (some T) live = true →
    ∃ T' live', RowsInv (pairRows R N (ps.foldl applyPass db)) T' live'
  | [], db, T, live, hinv, _ => ⟨T, live, hinv⟩
  | p :: ps, db, T, live, hinv, hv => by
    unfold validSeqB at hv
    simp only [Bool.and_eq_true, decide_eq_true_eq] at hv
    obtain ⟨⟨hT, hvp⟩, hrest⟩ := hv
    rw [List.foldl_cons]
    exact rowsInv_seq R N ps (applyPass db p) p.time _
      (rowsInv_pass R N db p T live hinv hvp hT) hrest

/-- C1 amended.  For every valid observation sequence of update passes
starting from the empty store — strictly increasing pass timestamps; per
pass, at most one transition for the pair, pruning or changing only a live
pair and observing as new only a dead pair — the pair's history rows, which
appear in the table already sorted by strictly increasing `fromTime`, are
non-overlapping and ordered: every row but possibly the last is closed, each
closed row spans `fromTime ≤ toTime`, its `toTime` is at most (not
necessarily equal to) the next row's `fromTime`, and at most one row is open
and it is positioned last.  Strict contiguity (`toTime` = next `fromTime`)
fails in general — see the counterexample, where a reference is removed and
later re-observed as new, leaving a gap. -/
theorem c1_history_ordered (R N : String) (ps : List PassInput)
    (h : validSeqB R N ps none false = true) :
    historyOkB (pairRows R N (applySeq ps)) = true := by
  cases ps with
  | nil => rfl
  | cons p ps =>
    unfold validSeqB at h
    simp only [Bool.and_eq_true] at h
    obtain ⟨⟨_, hvp⟩, hrest⟩ := h
    have hstep := rowsInv_pass_empty R N [] p rfl hvp
    unfold applySeq
    rw [List.foldl_cons]
    obtain ⟨T', live', hfin⟩ :=
      rowsInv_seq R N ps (applyPass [] p) p.time _ hstep hrest
    exact rowsInv_historyOk _ T' live' hfin

/-- Witness for `c1_history_ordered` at the concrete new/removed/new
sequence. -/
theorem c1_history_ordered_witness :
    historyOkB (pairRows "origin" "br1" (applySeq seqGap)) = true :=
  c1_history_ordered "origin" "br1" seqGap (by decide)

/-- C1 counterexample.  The sequence `seqGap` — `br1` observed New at time 1,
Removed at time 2, New again at time 3 — is a valid pass sequence, yet the
resulting rows `[(br1, 1, 2), (br1, 3, open)]` are not contiguous: the first
row's `toTime` 2 differs from the next row's `fromTime` 3. -/
theorem c1_counterexample :
    validSeqB "origin" "br1" seqGap none false = true ∧
    contiguousB (pairRows "origin" "br1" (applySeq seqGap)) = false ∧
    pairRows "origin" "br1" (applySeq seqGap) =
      [⟨"origin", "br1", 1, some 2, "a", false⟩,
       ⟨"origin", "br1", 3, none, "a", false⟩] :=
  ⟨by decide, by decide, by decide⟩

end HistoryInvariant

section GitLemmas

/-- `git branch -f b sha` leaves the branch `b` pointing at `sha`. -/
theorem setBranch_mem_self (st : GitState) (b s : String) :
    (b, s) ∈ (setBranch st b s).1 := by
  unfold setBranch
  cases hf : branchSha st b with
  | none => simp
  | some old =>
    dsimp only
    unfold branchSha at hf
    cases hq : st.find? (fun p => p.1 == b) with
    | none => rw [hq] at hf; exact absurd hf (by simp)
    | some q =>
      rw [hq] at hf
      have hqv : q.2 = old := by simpa using hf
      have hqb := List.find?_some hq
      have hqmem : q ∈ st := List.mem_of_find?_eq_some hq
      by_cases ho : (old == s) = true
      · have hqs : q = (b, s) := by
          obtain ⟨q1, q2⟩ := q
          simp only [Prod.mk.injEq]
          simp only at hqb hqv
          exact ⟨by simpa using hqb, hqv.trans (beq_iff_eq.mp ho)⟩
        rw [if_pos ho]
        exact hqs ▸ hqmem
      · rw [if_neg ho]
        show (b, s) ∈ List.map (fun p : String × String => if p.1 == b then (b, s) else p) st
        exact List.mem_map.mpr ⟨q, hqmem, by simp [hqb]⟩

/-- `git branch -f b sha` does not disturb branches of other names. -/
theorem setBranch_mem_other (st : GitState) (b s : String) (q : String × String)
    (hq : q ∈ st) (hne : q.1 ≠ b) : q ∈ (setBranch st b s).1 := by
  unfold setBranch
  cases branchSha st b with
  | none => exact List.mem_append_left _ hq
  | some old =>
    dsimp only
    by_cases ho : (old == s) = true
    · rw [if_pos ho]
      exact hq
    · rw [if_neg ho]
      show q ∈ List.map (fun p : String × String => if p.1 == b then (b, s) else p) st
      exact List.mem_map.mpr ⟨q, hq, by simp [hne]⟩

/-- A present branch name makes `hasBranch` true. -/
theorem hasBranch_of_mem (st : GitState) (b v : String) (h : (b, v) ∈ st) :
    hasBranch st b = true := by
  unfold hasBranch
  rw [List.any_eq_true]
  exact ⟨(b, v), h, by simp⟩

/-- After deleting every entry named `b`, the branch is gone. -/
theorem hasBranch_filter_ne (st : GitState) (b : String) :
    hasBranch (st.filter (fun p => p.1 != b)) b = false := by
  unfold hasBranch
  rw [Bool.eq_false_iff]
  intro hcon
  rw [List.any_eq_true] at hcon
  obtain ⟨p, hp, hpb⟩ := hcon
  obtain ⟨_, hcond⟩ := List.mem_filter.mp hp
  simp only [bne_iff_ne, ne_eq, decide_eq_true_eq] at hcond
  exact hcond (by simpa using hpb)

/-- Two distinct members force length at least two. -/
theorem two_le_length_of_mem {α : Type} (l : List α) (a b : α)
    (ha : a ∈ l) (hb : b ∈ l) (hne : a ≠ b) : 2 ≤ l.length := by
  cases l with
  | nil => cases ha
  | cons x xs =>
    rcases List.mem_cons.mp ha with rfl | ha'
    · rcases List.mem_cons.mp hb with rfl | hb'
      · exact absurd rfl hne
      · have := List.length_pos_of_mem hb'
        simp only [List.length_cons]
        omega
    · have := List.length_pos_of_mem ha'
      simp only [List.length_cons]
      omega

/-- The single-reference reconciler in terms of `setBranch` then
`cleanupSha`: final state and error projections. -/
theorem reconcile_single (anc : String → String → Bool) (shaOf : Ref → String)
    (st : GitState) (r : Ref) :
    (reconcile anc shaOf st [r]).1 =
      (cleanupSha anc (setBranch st (keeperName (shaOf r)) (shaOf r)).1
        (shaOf r) r.tag).1 ∧
    (reconcile anc shaOf st [r]).2.2 =
      (cleanupSha anc (setBranch st (keeperName (shaOf r)) (shaOf r)).1
        (shaOf r) r.tag).2.2 := by
  unfold reconcile anchorList cleanupList
  cases hsb : setBranch st (keeperName (shaOf r)) (shaOf r) with
  | mk st1 m1 =>
    cases hcs : cleanupSha anc st1 (shaOf r) r.tag with
    | mk stA rest =>
      cases rest with
      | mk mA e =>
        cases e with
        | none => simp [anchorList, cleanupList, hsb, hcs]
        | some e' => simp [anchorList, cleanupList, hsb, hcs]

end GitLemmas

section ReconcilerClaims

/-- C2 counterexample.  The claim states that when a non-tag reference's
resolved commit is reachable from a pre-existing distinct branch, the anchor
is deleted and that branch survives.  With a pre-existing branch `other`
pointing exactly at the resolved commit `A` (a commit is reachable from a
branch whose tip it is), the reconciler deletes `other` in its
ancestor-cleanup step and then keeps the anchor, since only one branch
contains `A` afterwards: the exact opposite of both claimed conclusions. -/
theorem c2_counterexample :
    ancSingle "A" "A" = true ∧
    (reconcile ancSingle (fun _ => "A") [("other", "A")] [refBr1]).1 =
      [("keep-A", "A")] ∧
    hasBranch (reconcile ancSingle (fun _ => "A") [("other", "A")] [refBr1]).1
      "keep-A" = true ∧
    hasBranch (reconcile ancSingle (fun _ => "A") [("other", "A")] [refBr1]).1
      "other" = false ∧
    (reconcile ancSingle (fun _ => "A") [("other", "A")] [refBr1]).2.2 = none :=
  ⟨rfl, rfl, rfl, rfl, rfl⟩

/-- C2 amended.  For a single reconciled reference with resolved commit
`sha`: (non-tag part) if `sha` is *strictly* reachable from a pre-existing
branch distinct from the anchor — the branch's tip is a strict descendant,
i.e. `anc sha tip` holds but `anc tip sha` does not, so the branch is not
itself swept by the ancestor-cleanup step — then after the Retention
Reconciler runs without failure the anchor for `sha` does not exist and the
pre-existing branch still exists; (tag part) for a tag reference the anchor
always survives the run, which never fails.  When the pre-existing branch
points exactly at `sha`, the branch is deleted and the anchor retained
instead — see the counterexample. -/
theorem c2_anchor_redundancy (anc : String → String → Bool) (shaOf : Ref → String)
    (st0 : GitState) (r : Ref) (bn bt : String)
    (hrefl : anc (shaOf r) (shaOf r) = true) :
    (r.tag = false →
      (bn, bt) ∈ st0 → bn ≠ keeperName (shaOf r) →
      anc (shaOf r) bt = true → anc bt (shaOf r) = false →
      (reconcile anc shaOf st0 [r]).2.2 = none ∧
      hasBranch (reconcile anc shaOf st0 [r]).1 (keeperName (shaOf r)) = false ∧
      (bn, bt) ∈ (reconcile anc shaOf st0 [r]).1) ∧
    (r.tag = true →
      (reconcile anc shaOf st0 [r]).2.2 = none ∧
      hasBranch (reconcile anc shaOf st0 [r]).1 (keeperName (shaOf r)) = true) := by
  obtain ⟨hfst, herr⟩ := reconcile_single anc shaOf st0 r
  have hB1k : (keeperName (shaOf r), shaOf r) ∈
      (setBranch st0 (keeperName (shaOf r)) (shaOf r)).1 :=
    setBranch_mem_self st0 _ _
  constructor
  · intro htag hmem hbn hreach hstrict
    have hB1b : (bn, bt) ∈ (setBranch st0 (keeperName (shaOf r)) (shaOf r)).1 :=
      setBranch_mem_other st0 _ _ _ hmem hbn
    -- survival of both branches through the ancestor-cleanup filter
    have hB2k : (keeperName (shaOf r), shaOf r) ∈
        ((setBranch st0 (keeperName (shaOf r)) (shaOf r)).1.filter
          (fun p => !(anc p.2 (shaOf r) && p.1 != keeperName (shaOf r)))) :=
      List.mem_filter.mpr ⟨hB1k, by simp [hrefl]⟩
    have hB2b : (bn, bt) ∈
        ((setBranch st0 (keeperName (shaOf r)) (shaOf r)).1.filter
          (fun p => !(anc p.2 (shaOf r) && p.1 != keeperName (shaOf r)))) :=
      List.mem_filter.mpr ⟨hB1b, by simp [hstrict]⟩
    -- the including count is at least two
    have hkc : (keeperName (shaOf r), shaOf r) ∈
        (((setBranch st0 (keeperName (shaOf r)) (shaOf r)).1.filter
          (fun p => !(anc p.2 (shaOf r) && p.1 != keeperName (shaOf r)))).filter
            (fun p => anc (shaOf r) p.2)) :=
      List.mem_filter.mpr ⟨hB2k, by simpa using hrefl⟩
    have hbc : (bn, bt) ∈
        (((setBranch st0 (keeperName (shaOf r)) (shaOf r)).1.filter
          (fun p => !(anc p.2 (shaOf r) && p.1 != keeperName (shaOf r)))).filter
            (fun p => anc (shaOf r) p.2)) :=
      List.mem_filter.mpr ⟨hB2b, by simpa using hreach⟩
    have hcount : 1 <
        (((setBranch st0 (keeperName (shaOf r)) (shaOf r)).1.filter
          (fun p => !(anc p.2 (shaOf r) && p.1 != keeperName (shaOf r)))).filter
            (fun p => anc (shaOf r) p.2)).length :=
      two_le_length_of_mem _ _ _ hkc hbc
        (fun hcon => hbn (congrArg Prod.fst hcon).symm)
    have hfire : (!r.tag && decide
        ((((setBranch st0 (keeperName (shaOf r)) (shaOf r)).1.filter
          (fun p => !(anc p.2 (shaOf r) && p.1 != keeperName (shaOf r)))).filter
            (fun p => anc (shaOf r) p.2)).length > 1)) = true := by
      rw [htag, Bool.not_false, Bool.true_and]
      exact decide_eq_true hcount
    have hhas : hasBranch
        ((setBranch st0 (keeperName (shaOf r)) (shaOf r)).1.filter
          (fun p => !(anc p.2 (shaOf r) && p.1 != keeperName (shaOf r))))
        (keeperName (shaOf r)) = true :=
      hasBranch_of_mem _ _ _ hB2k
    have hcs : cleanupSha anc (setBranch st0 (keeperName (shaOf r)) (shaOf r)).1
        (shaOf r) r.tag =
        (((setBranch st0 (keeperName (shaOf r)) (shaOf r)).1.filter
          (fun p => !(anc p.2 (shaOf r) && p.1 != keeperName (shaOf r)))).filter
            (fun p => p.1 != keeperName (shaOf r)),
         (((setBranch st0 (keeperName (shaOf r)) (shaOf r)).1.filter
            (fun p => anc p.2 (shaOf r) && p.1 != keeperName (shaOf r))).map
              (·.1)).map Mut.deleted ++ [.deleted (keeperName (shaOf r))],
         none) := by
      simp only [cleanupSha]
      rw [if_pos hfire, if_pos hhas]
    refine ⟨by rw [herr, hcs], ?_, ?_⟩
    · rw [hfst, hcs]
      exact hasBranch_filter_ne _ _
    · rw [hfst, hcs]
      exact List.mem_filter.mpr ⟨hB2b, by simp [hbn]⟩
  · intro htag
    have hB2k : (keeperName (shaOf r), shaOf r) ∈
        ((setBranch st0 (keeperName (shaOf r)) (shaOf r)).1.filter
          (fun p => !(anc p.2 (shaOf r) && p.1 != keeperName (shaOf r)))) :=
      List.mem_filter.mpr ⟨hB1k, by simp [hrefl]⟩
    have hnof : (!r.tag && decide
        ((((setBranch st0 (keeperName (shaOf r)) (shaOf r)).1.filter
          (fun p => !(anc p.2 (shaOf r) && p.1 != keeperName (shaOf r)))).filter
            (fun p => anc (shaOf r) p.2)).length > 1)) = false := by
      rw [htag]
      rfl
    have hcs : cleanupSha anc (setBranch st0 (keeperName (shaOf r)) (shaOf r)).1
        (shaOf r) r.tag =
        ((setBranch st0 (keeperName (shaOf r)) (shaOf r)).1.filter
          (fun p => !(anc p.2 (shaOf r) && p.1 != keeperName (shaOf r))),
         (((setBranch st0 (keeperName (shaOf r)) (shaOf r)).1.filter
            (fun p => anc p.2 (shaOf r) && p.1 != keeperName (shaOf r))).map
              (·.1)).map Mut.deleted,
         none) := by
      simp only [cleanupSha]
      rw [if_neg (by rw [hnof]; exact fun h => Bool.false_ne_true h)]
    refine ⟨by rw [herr, hcs], ?_⟩
    rw [hfst, hcs]
    exact hasBranch_of_mem _ _ _ hB2k

/-- Witness for `c2_anchor_redundancy`: the non-tag part on the two-commit
chain with pre-existing branch `other` at the strict descendant `b`, and the
tag part on a tag reference at a shared commit. -/
theorem c2_anchor_redundancy_witness :
    (hasBranch (reconcile ancChain (fun _ => "a") [("other", "b")] [refBr1]).1
        (keeperName "a") = false ∧
      ("other", "b") ∈ (reconcile ancChain (fun _ => "a") [("other", "b")] [refBr1]).1) ∧
    hasBranch (reconcile ancChain (fun _ => "a") [("other", "b")]
        [⟨"origin", "tag1", true⟩]).1 (keeperName "a") = true := by
  have h := c2_anchor_redundancy ancChain (fun _ => "a") [("other", "b")] refBr1
    "other" "b" rfl
  have h2 := c2_anchor_redundancy ancChain (fun _ => "a") [("other", "b")]
    ⟨"origin", "tag1", true⟩ "other" "b" rfl
  obtain ⟨-, hkeep, hmem⟩ := h.1 rfl (by simp) (by decide) rfl rfl
  obtain ⟨-, htag⟩ := h2.2 rfl
  exact ⟨⟨hkeep, hmem⟩, htag⟩

/-- An absent branch has no recorded commit. -/
theorem branchSha_eq_none (st : GitState) (b : String)
    (h : hasBranch st b = false) : branchSha st b = none := by
  unfold hasBranch at h
  unfold branchSha
  have hnone : st.find? (fun p => p.1 == b) = none := by
    rw [List.find?_eq_none]
    intro p hp hcon
    have : st.any (fun p => p.1 == b) = true := List.any_eq_true.mpr ⟨p, hp, hcon⟩
    rw [h] at this
    exact Bool.false_ne_true this
  rw [hnone]
  rfl

/-- Branch names stay unique under `git branch -f`. -/
theorem setBranch_nodup (st : GitState) (b s : String)
    (h : (st.map Prod.fst).Nodup) :
    ((setBranch st b s).1.map Prod.fst).Nodup := by
  unfold setBranch
  cases hf : branchSha st b with
  | none =>
    dsimp only
    rw [List.map_append]
    have hb : b ∉ st.map Prod.fst := by
      intro hcon
      obtain ⟨p, hp, hpb⟩ := List.mem_map.mp hcon
      unfold branchSha at hf
      cases hq : st.find? (fun p => p.1 == b) with
      | some q => rw [hq] at hf; exact absurd hf (by simp)
      | none =>
        rw [List.find?_eq_none] at hq
        exact hq p hp (by simp [hpb])
    simp [List.nodup_append, h, hb]
  | some old =>
    dsimp only
    by_cases ho : (old == s) = true
    · rw [if_pos ho]
      exact h
    · rw [if_neg ho]
      have hmap : (List.map (fun p : String × String =>
          if p.1 == b then (b, s) else p) st).map Prod.fst = st.map Prod.fst := by
        rw [List.map_map]
        apply List.map_congr_left
        intro p _
        by_cases hpb : (p.1 == b) = true
        · simp only [Function.comp_apply, if_pos hpb]
          exact (beq_iff_eq.mp hpb).symm
        · simp only [Function.comp_apply, if_neg hpb]
      rw [hmap]
      exact h

/-- On a name-unique branch list an entry's commit is unique. -/
theorem nodup_mem_unique (l : GitState) (n v1 v2 : String)
    (h : (l.map Prod.fst).Nodup) (h1 : (n, v1) ∈ l) (h2 : (n, v2) ∈ l) :
    v1 = v2 := by
  induction l with
  | nil => cases h1
  | cons p rest ih =>
    rw [List.map_cons, List.nodup_cons] at h
    rcases List.mem_cons.mp h1 with heq1 | h1'
    · rcases List.mem_cons.mp h2 with heq2 | h2'
      · rw [← heq1] at heq2
        exact ((Prod.mk.injEq _ _ _ _).mp heq2.symm).2
      · exfalso
        apply h.1
        rw [← heq1]
        exact List.mem_map.mpr ⟨(n, v2), h2', rfl⟩
    · rcases List.mem_cons.mp h2 with heq2 | h2'
      · exfalso
        apply h.1
        rw [← heq2]
        exact List.mem_map.mpr ⟨(n, v1), h1', rfl⟩
      · exact ih h.2 h1' h2'

/-- `branchSha` on a name-unique list returns the member's commit. -/
theorem branchSha_of_mem_nodup (l : GitState) (n v : String)
    (h : (l.map Prod.fst).Nodup) (hm : (n, v) ∈ l) :
    branchSha l n = some v := by
  induction l with
  | nil => cases hm
  | cons p rest ih =>
    rw [List.map_cons, List.nodup_cons] at h
    unfold branchSha
    rw [List.find?_cons]
    by_cases hp : (p.1 == n) = true
    · rw [hp]
      rcases List.mem_cons.mp hm with heq | hm'
      · rw [← heq]
        rfl
      · exfalso
        apply h.1
        rw [beq_iff_eq.mp hp]
        exact List.mem_map.mpr ⟨(n, v), hm', rfl⟩
    · rw [Bool.not_eq_true] at hp
      rw [hp]
      rcases List.mem_cons.mp hm with heq | hm'
      · exfalso
        rw [← heq] at hp
        simp at hp
      · have hrec := ih h.2 hm'
        unfold branchSha at hrec
        exact hrec

/-- A name-unique branch list is a permutation of any of its entries consed
onto the list purged of that name. -/
theorem perm_cons_filter_ne (l : GitState) (k v : String)
    (h : (l.map Prod.fst).Nodup) (hm : (k, v) ∈ l) :
    l.Perm ((k, v) :: l.filter (fun p => p.1 != k)) := by
  induction l with
  | nil => cases hm
  | cons p rest ih =>
    rw [List.map_cons, List.nodup_cons] at h
    rcases List.mem_cons.mp hm with heq | hm'
    · have hkrest : k ∉ rest.map Prod.fst := by
        rw [← heq] at h
        exact h.1
      have hrest : rest.filter (fun p => p.1 != k) = rest := by
        rw [List.filter_eq_self]
        intro a ha
        simp only [bne_iff_ne, ne_eq, decide_eq_true_eq]
        intro hcon
        exact hkrest (hcon ▸ List.mem_map.mpr ⟨a, ha, rfl⟩)
      rw [← heq]
      have hhead : ((k, v) :: rest).filter (fun p => p.1 != k) = rest := by
        rw [List.filter_cons]
        simp only [bne_self_eq_false, Bool.false_eq_true, if_false]
        exact hrest
      rw [hhead]
    · have hpk : (p.1 != k) = true := by
        simp only [bne_iff_ne, ne_eq, decide_eq_true_eq]
        intro hcon
        exact h.1 (hcon ▸ List.mem_map.mpr ⟨(k, v), hm', rfl⟩)
      have hfc : (p :: rest).filter (fun q => q.1 != k) =
          p :: rest.filter (fun q => q.1 != k) := by
        rw [List.filter_cons, if_pos hpk]
      rw [hfc]
      exact ((ih h.2 hm').cons p).trans (List.Perm.swap (k, v) p _)

/-- `cleanupSha` characterization when the anchor is present: it never fails,
and the final state is the ancestor-cleaned state, with the anchor further
removed exactly when the redundancy rule fires. -/
theorem cleanupSha_cases (anc : String → String → Bool) (B1 : GitState)
    (sha : String) (tag : Bool)
    (hk : (keeperName sha, sha) ∈ B1) (hrefl : anc sha sha = true) :
    (cleanupSha anc B1 sha tag).2.2 = none ∧
    (cleanupSha anc B1 sha tag).1 =
      (if (!tag && decide
          (((B1.filter (fun p => !(anc p.2 sha && p.1 != keeperName sha))).filter
            (fun p => anc sha p.2)).length > 1))
       then (B1.filter (fun p => !(anc p.2 sha && p.1 != keeperName sha))).filter
              (fun p => p.1 != keeperName sha)
       else B1.filter (fun p => !(anc p.2 sha && p.1 != keeperName sha))) := by
  have hkB2 : (keeperName sha, sha) ∈
      B1.filter (fun p => !(anc p.2 sha && p.1 != keeperName sha)) :=
    List.mem_filter.mpr ⟨hk, by simp [hrefl]⟩
  have hhas := hasBranch_of_mem _ _ _ hkB2
  by_cases hfire : (!tag && decide
      (((B1.filter (fun p => !(anc p.2 sha && p.1 != keeperName sha))).filter
        (fun p => anc sha p.2)).length > 1)) = true
  · rw [if_pos hfire]
    constructor <;>
      · simp only [cleanupSha]
        rw [if_pos hfire, if_pos hhas]
  · rw [if_neg hfire]
    constructor <;>
      · simp only [cleanupSha]
        rw [if_neg hfire]

/-- C3 counterexample.  With pre-existing branch `other` at commit `b` and a
non-tag reference resolving to its ancestor `a`, the first reconciler run
creates the anchor `keep-a` and deletes it as redundant.  Re-running the
reconciler on the resulting state with the same resolved commit performs the
same two branch mutations again — not zero, refuting the claim. -/
theorem c3_counterexample :
    (reconcile ancChain (fun _ => "a") [("other", "b")] [refBr1]).1 =
      [("other", "b")] ∧
    (reconcile ancChain (fun _ => "a")
        (reconcile ancChain (fun _ => "a") [("other", "b")] [refBr1]).1
        [refBr1]).2.1 =
      [.created "keep-a" "a", .deleted "keep-a"] ∧
    (reconcile ancChain (fun _ => "a")
        (reconcile ancChain (fun _ => "a") [("other", "b")] [refBr1]).1
        [refBr1]).2.1 ≠ ([] : List Mut) :=
  ⟨rfl, rfl, by decide⟩

/-- Second-run analysis when the redundancy rule fired in the first run: the
re-created anchor is deleted again and the state returns to the first run's
final state. -/
theorem c3_fired_aux (anc : String → String → Bool) (sha : String) (tag : Bool)
    (B2 : GitState)
    (hndB2 : (B2.map Prod.fst).Nodup)
    (hkB2 : (keeperName sha, sha) ∈ B2)
    (hpred : ∀ q ∈ B2, (!(anc q.2 sha && q.1 != keeperName sha)) = true)
    (hrefl : anc sha sha = true)
    (hfire : (!tag && decide
      ((B2.filter (fun p => anc sha p.2)).length > 1)) = true) :
    (cleanupSha anc (setBranch (B2.filter (fun p => p.1 != keeperName sha))
        (keeperName sha) sha).1 sha tag).2.2 = none ∧
    (cleanupSha anc (setBranch (B2.filter (fun p => p.1 != keeperName sha))
        (keeperName sha) sha).1 sha tag).1 =
      B2.filter (fun p => p.1 != keeperName sha) := by
  have hDnok : ∀ q ∈ B2.filter (fun p => p.1 != keeperName sha),
      (q.1 != keeperName sha) = true := fun q hq => (List.mem_filter.mp hq).2
  have hshaD : branchSha (B2.filter (fun p => p.1 != keeperName sha))
      (keeperName sha) = none :=
    branchSha_eq_none _ _ (hasBranch_filter_ne _ _)
  have hsb : (setBranch (B2.filter (fun p => p.1 != keeperName sha))
      (keeperName sha) sha).1 =
      B2.filter (fun p => p.1 != keeperName sha) ++ [(keeperName sha, sha)] := by
    unfold setBranch
    rw [hshaD]
  rw [hsb]
  have hkB1' : (keeperName sha, sha) ∈
      B2.filter (fun p => p.1 != keeperName sha) ++ [(keeperName sha, sha)] :=
    List.mem_append_right _ (List.mem_singleton.mpr rfl)
  obtain ⟨herr, hst⟩ := cleanupSha_cases anc _ sha tag hkB1' hrefl
  have hB2' : (B2.filter (fun p => p.1 != keeperName sha) ++
      [(keeperName sha, sha)]).filter
      (fun p => !(anc p.2 sha && p.1 != keeperName sha)) =
      B2.filter (fun p => p.1 != keeperName sha) ++ [(keeperName sha, sha)] := by
    rw [List.filter_append]
    congr 1
    · rw [List.filter_eq_self]
      intro q hq
      exact hpred q (List.mem_of_mem_filter hq)
    · simp [hrefl]
  have hcnt : (((B2.filter (fun p => p.1 != keeperName sha) ++
      [(keeperName sha, sha)]).filter
        (fun p => !(anc p.2 sha && p.1 != keeperName sha))).filter
          (fun p => anc sha p.2)).length =
      (B2.filter (fun p => anc sha p.2)).length := by
    rw [hB2', List.filter_append]
    have hperm := perm_cons_filter_ne B2 (keeperName sha) sha hndB2 hkB2
    have hlen := (hperm.filter (fun p => anc sha p.2)).length_eq
    rw [hlen, List.filter_cons]
    simp only [hrefl, if_pos]
    rw [List.length_append, List.length_cons]
    simp [hrefl]
  have hfire' : (!tag && decide
      ((((B2.filter (fun p => p.1 != keeperName sha) ++
        [(keeperName sha, sha)]).filter
          (fun p => !(anc p.2 sha && p.1 != keeperName sha))).filter
            (fun p => anc sha p.2)).length > 1)) = true := by
    rw [hcnt]
    exact hfire
  rw [hfire'] at hst
  rw [if_pos rfl] at hst
  refine ⟨herr, ?_⟩
  rw [hst, hB2', List.filter_append]
  have h1 : (B2.filter (fun p => p.1 != keeperName sha)).filter
      (fun p => p.1 != keeperName sha) =
      B2.filter (fun p => p.1 != keeperName sha) := by
    rw [List.filter_eq_self]
    exact hDnok
  have h2 : ([((keeperName sha, sha) : String × String)]).filter
      (fun p => p.1 != keeperName sha) = [] := by
    simp
  rw [h1, h2, List.append_nil]

/-- Second-run analysis when the redundancy rule did not fire in the first
run: the anchor is already in place and the state is unchanged. -/
theorem c3_unfired_aux (anc : String → String → Bool) (sha : String) (tag : Bool)
    (B2 : GitState)
    (hndB2 : (B2.map Prod.fst).Nodup)
    (hkB2 : (keeperName sha, sha) ∈ B2)
    (hpred : ∀ q ∈ B2, (!(anc q.2 sha && q.1 != keeperName sha)) = true)
    (hrefl : anc sha sha = true)
    (hfire : ¬(!tag && decide
      ((B2.filter (fun p => anc sha p.2)).length > 1)) = true) :
    (cleanupSha anc (setBranch B2 (keeperName sha) sha).1 sha tag).2.2 = none ∧
    (cleanupSha anc (setBranch B2 (keeperName sha) sha).1 sha tag).1 = B2 := by
  have hsB2 : branchSha B2 (keeperName sha) = some sha :=
    branchSha_of_mem_nodup B2 _ _ hndB2 hkB2
  have hsb : (setBranch B2 (keeperName sha) sha).1 = B2 := by
    unfold setBranch
    rw [hsB2]
    dsimp only
    rw [if_pos (by simp)]
  rw [hsb]
  obtain ⟨herr, hst⟩ := cleanupSha_cases anc B2 sha tag hkB2 hrefl
  have hself : B2.filter (fun p => !(anc p.2 sha && p.1 != keeperName sha)) = B2 := by
    rw [List.filter_eq_self]
    exact hpred
  rw [hself] at hst
  rw [if_neg hfire] at hst
  exact ⟨herr, hst⟩

/-- Single-reference special case of state-level reconciler idempotence,
with a conclusion stronger than the general list version: the second run's
final state is literally equal (not merely equal as a branch set) to the
first run's, assuming only name uniqueness and reflexivity of reachability
at the resolved commit. -/
theorem c3_second_run_state_idempotent (anc : String → String → Bool)
    (shaOf : Ref → String) (st : GitState) (r : Ref)
    (hnd : (st.map Prod.fst).Nodup) (hrefl : anc (shaOf r) (shaOf r) = true) :
    (reconcile anc shaOf st [r]).2.2 = none ∧
    (reconcile anc shaOf (reconcile anc shaOf st [r]).1 [r]).2.2 = none ∧
    (reconcile anc shaOf (reconcile anc shaOf st [r]).1 [r]).1 =
      (reconcile anc shaOf st [r]).1 := by
  obtain ⟨hfst1, herr1⟩ := reconcile_single anc shaOf st r
  have hkB1 : (keeperName (shaOf r), shaOf r) ∈
      (setBranch st (keeperName (shaOf r)) (shaOf r)).1 :=
    setBranch_mem_self st _ _
  have hndB1 : ((setBranch st (keeperName (shaOf r)) (shaOf r)).1.map
      Prod.fst).Nodup := setBranch_nodup st _ _ hnd
  obtain ⟨herrA, hstA⟩ := cleanupSha_cases anc
    (setBranch st (keeperName (shaOf r)) (shaOf r)).1 (shaOf r) r.tag hkB1 hrefl
  -- abbreviate the ancestor-cleaned state of the first run
  have hndB2 : (((setBranch st (keeperName (shaOf r)) (shaOf r)).1.filter
      (fun p => !(anc p.2 (shaOf r) && p.1 != keeperName (shaOf r)))).map
        Prod.fst).Nodup :=
    ((List.filter_sublist _).map Prod.fst).nodup hndB1
  have hkB2 : (keeperName (shaOf r), shaOf r) ∈
      (setBranch st (keeperName (shaOf r)) (shaOf r)).1.filter
        (fun p => !(anc p.2 (shaOf r) && p.1 != keeperName (shaOf r))) :=
    List.mem_filter.mpr ⟨hkB1, by simp [hrefl]⟩
  have hB2pred : ∀ q ∈ (setBranch st (keeperName (shaOf r)) (shaOf r)).1.filter
      (fun p => !(anc p.2 (shaOf r) && p.1 != keeperName (shaOf r))),
      (!(anc q.2 (shaOf r) && q.1 != keeperName (shaOf r))) = true :=
    fun q hq => (List.mem_filter.mp hq).2
  obtain ⟨hfst2, herr2⟩ := reconcile_single anc shaOf
    (reconcile anc shaOf st [r]).1 r
  refine ⟨by rw [herr1, herrA], ?_, ?_⟩ <;>
    rw [hfst1, hstA] at hfst2 herr2 ⊢
  all_goals (
    by_cases hfire : (!r.tag && decide
        ((((setBranch st (keeperName (shaOf r)) (shaOf r)).1.filter
          (fun p => !(anc p.2 (shaOf r) && p.1 != keeperName (shaOf r)))).filter
            (fun p => anc (shaOf r) p.2)).length > 1)) = true)
  -- the four goals: error of run 2 (fired / not fired), state of run 2
  -- (fired / not fired)
  case pos =>
    rw [if_pos hfire] at herr2 ⊢
    rw [herr2]
    exact (c3_fired_aux anc (shaOf r) r.tag _ hndB2 hkB2 hB2pred hrefl hfire).1
  case neg =>
    rw [if_neg hfire] at herr2 ⊢
    rw [herr2]
    exact (c3_unfired_aux anc (shaOf r) r.tag _ hndB2 hkB2 hB2pred hrefl hfire).1
  case pos =>
    rw [if_pos hfire] at hfst2 ⊢
    rw [hfst2]
    exact (c3_fired_aux anc (shaOf r) r.tag _ hndB2 hkB2 hB2pred hrefl hfire).2
  case neg =>
    rw [if_neg hfire] at hfst2 ⊢
    rw [hfst2]
    exact (c3_unfired_aux anc (shaOf r) r.tag _ hndB2 hkB2 hB2pred hrefl hfire).2

/-- Witness for `c3_second_run_state_idempotent` at the redundant-anchor
scenario of the counterexample. -/
theorem c3_second_run_state_idempotent_witness :
    (reconcile ancChain (fun _ => "a") [("other", "b")] [refBr1]).2.2 = none ∧
    (reconcile ancChain (fun _ => "a")
      (reconcile ancChain (fun _ => "a") [("other", "b")] [refBr1]).1
      [refBr1]).2.2 = none ∧
    (reconcile ancChain (fun _ => "a")
      (reconcile ancChain (fun _ => "a") [("other", "b")] [refBr1]).1
      [refBr1]).1 =
      (reconcile ancChain (fun _ => "a") [("other", "b")] [refBr1]).1 :=
  c3_second_run_state_idempotent ancChain (fun _ => "a") [("other", "b")] refBr1
    (by decide) rfl

end ReconcilerClaims

section ReconcilerSetIdempotence

/-- Anchor names are in bijection with commit ids. -/
theorem keeperName_inj (a b : String) (h : keeperName a = keeperName b) : a = b := by
  unfold keeperName at h
  have hd := congrArg String.data h
  rw [String.data_append, String.data_append] at hd
  exact String.ext (List.append_cancel_left hd)

/-- A present branch yields a member entry. -/
theorem hasBranch_mem_exists (st : GitState) (b : String)
    (h : hasBranch st b = true) : ∃ v, (b, v) ∈ st := by
  unfold hasBranch at h
  rw [List.any_eq_true] at h
  obtain ⟨p, hp, hpb⟩ := h
  obtain ⟨p1, p2⟩ := p
  have hb : p1 = b := by simpa using hpb
  subst hb
  exact ⟨p2, hp⟩

/-- Unfolding the anchoring loop one step, state component. -/
theorem anchorList_cons_fst (shaOf : Ref → String) (st : GitState)
    (r : Ref) (rs : List Ref) :
    (anchorList shaOf st (r :: rs)).1 =
      (anchorList shaOf (setBranch st (keeperName (shaOf r)) (shaOf r)).1 rs).1 := by
  cases hsb : setBranch st (keeperName (shaOf r)) (shaOf r) with
  | mk st1 m1 =>
    cases hal : anchorList shaOf st1 rs with
    | mk st2 m2 => simp only [anchorList, hsb, hal]

/-- `git branch -f b s` on a state already holding the entry `(b, s)`
keeps that entry. -/
theorem setBranch_mem_same (st : GitState) (b s : String)
    (hm : (b, s) ∈ st) : (b, s) ∈ (setBranch st b s).1 := by
  unfold setBranch
  cases hf : branchSha st b with
  | none => exact List.mem_append_left _ hm
  | some old =>
    dsimp only
    by_cases ho : (old == s) = true
    · rw [if_pos ho]
      exact hm
    · rw [if_neg ho]
      show (b, s) ∈ List.map (fun p : String × String => if p.1 == b then (b, s) else p) st
      exact List.mem_map.mpr ⟨(b, s), hm, by simp⟩

/-- The anchoring loop preserves any anchor-shaped entry `(keep-v, v)`:
a later forced update of the same name necessarily forces it to the same
commit, and other names are untouched. -/
theorem anchorList_mem_keep (shaOf : Ref → String) :
    ∀ (rs : List Ref) (st : GitState) (v : String),
    (keeperName v, v) ∈ st →
    (keeperName v, v) ∈ (anchorList shaOf st rs).1
  | [], _, _, hm => hm
  | r' :: rs, st, v, hm => by
    rw [anchorList_cons_fst]
    apply anchorList_mem_keep shaOf rs _ v
    by_cases hkk : keeperName v = keeperName (shaOf r')
    · have hv : v = shaOf r' := keeperName_inj _ _ hkk
      rw [hv] at hm ⊢
      exact setBranch_mem_same st (keeperName (shaOf r')) (shaOf r') hm
    · exact setBranch_mem_other st (keeperName (shaOf r')) (shaOf r')
        (keeperName v, v) hm hkk

/-- Every reconciled reference's anchor is present after the anchoring loop,
pointing at its resolved commit. -/
theorem anchorList_keeper_mem (shaOf : Ref → String) :
    ∀ (rs : List Ref) (st : GitState) (r : Ref), r ∈ rs →
    (keeperName (shaOf r), shaOf r) ∈ (anchorList shaOf st rs).1
  | [], _, _, hr => absurd hr (List.not_mem_nil _)
  | r' :: rs, st, r, hr => by
    rw [anchorList_cons_fst]
    rcases List.mem_cons.mp hr with heq | hr'
    · subst heq
      exact anchorList_mem_keep shaOf rs _ (shaOf r)
        (setBranch_mem_self st (keeperName (shaOf r)) (shaOf r))
    · exact anchorList_keeper_mem shaOf rs _ r hr'

/-- Branch names stay unique across the whole anchoring loop. -/
theorem anchorList_nodup (shaOf : Ref → String) :
    ∀ (rs : List Ref) (st : GitState),
    (st.map Prod.fst).Nodup →
    (((anchorList shaOf st rs).1.map Prod.fst)).Nodup
  | [], _, h => h
  | r' :: rs, st, h => by
    rw [anchorList_cons_fst]
    exact anchorList_nodup shaOf rs _
      (setBranch_nodup st (keeperName (shaOf r')) (shaOf r') h)

/-- On a name-unique start state, an anchor-named entry after the anchoring
loop carries exactly its commit. -/
theorem anchorList_keeper_sha (shaOf : Ref → String) (rs : List Ref)
    (st : GitState) (hnd : (st.map Prod.fst).Nodup) (r : Ref) (hr : r ∈ rs)
    (v : String) (hv : (keeperName (shaOf r), v) ∈ (anchorList shaOf st rs).1) :
    v = shaOf r :=
  nodup_mem_unique _ _ _ _ (anchorList_nodup shaOf rs st hnd) hv
    (anchorList_keeper_mem shaOf rs st r hr)

/-- A missing branch name is not among the entry names. -/
theorem branchSha_none_not_mem (st : GitState) (b : String)
    (h : branchSha st b = none) : b ∉ st.map Prod.fst := by
  intro hcon
  obtain ⟨p, hp, hpb⟩ := List.mem_map.mp hcon
  unfold branchSha at h
  cases hq : st.find? (fun p => p.1 == b) with
  | some q => rw [hq] at h; exact absurd h (by simp)
  | none =>
    rw [List.find?_eq_none] at hq
    exact hq p hp (by simp [hpb])

/-- Against a name-unique start state whose anchor-named entries are already
correct, the anchoring loop only appends: the result is the start state
followed by the freshly created anchors, which carry new names. -/
theorem anchorList_extend (shaOf : Ref → String) :
    ∀ (rs : List Ref) (S : GitState),
    (S.map Prod.fst).Nodup →
    (∀ r ∈ rs, ∀ v, (keeperName (shaOf r), v) ∈ S → v = shaOf r) →
    ∃ M, (anchorList shaOf S rs).1 = S ++ M ∧
      (∀ m ∈ M, (∃ r ∈ rs, m = (keeperName (shaOf r), shaOf r)) ∧
        m.1 ∉ S.map Prod.fst) ∧
      (M.map Prod.fst).Nodup
  | [], S, _, _ => ⟨[], by simp [anchorList], by simp, List.nodup_nil⟩
  | r' :: rs, S, hnd, htip => by
    rw [anchorList_cons_fst]
    cases hf : branchSha S (keeperName (shaOf r')) with
    | some old =>
      -- the anchor already exists; by the tip hypothesis it already
      -- points at the resolved commit, so the forced update is a no-op
      have hmem : (keeperName (shaOf r'), old) ∈ S := by
        unfold branchSha at hf
        cases hq : S.find? (fun p => p.1 == keeperName (shaOf r')) with
        | none => rw [hq] at hf; exact absurd hf (by simp)
        | some q =>
          rw [hq] at hf
          have hqb := List.find?_some hq
          have hqmem := List.mem_of_find?_eq_some hq
          have hqe : q = (keeperName (shaOf r'), old) := by
            obtain ⟨q1, q2⟩ := q
            simp only [Prod.mk.injEq]
            exact ⟨by simpa using hqb, by simpa using hf⟩
          rw [← hqe]
          exact hqmem
      have hold : old = shaOf r' := htip r' (List.mem_cons_self _ _) old hmem
      have hsb1 : (setBranch S (keeperName (shaOf r')) (shaOf r')).1 = S := by
        unfold setBranch
        rw [hf]
        dsimp only
        rw [if_pos (by simp [hold])]
      rw [hsb1]
      obtain ⟨M, hM1, hM2, hM3⟩ := anchorList_extend shaOf rs S hnd
        (fun r hr v hv => htip r (List.mem_cons_of_mem _ hr) v hv)
      exact ⟨M, hM1, fun m hm =>
        ⟨(hM2 m hm).1.imp (fun r hr => ⟨List.mem_cons_of_mem _ hr.1, hr.2⟩),
         (hM2 m hm).2⟩, hM3⟩
    | none =>
      have hsb1 : (setBranch S (keeperName (shaOf r')) (shaOf r')).1 =
          S ++ [(keeperName (shaOf r'), shaOf r')] := by
        unfold setBranch
        rw [hf]
      rw [hsb1]
      have hfresh : keeperName (shaOf r') ∉ S.map Prod.fst :=
        branchSha_none_not_mem S _ hf
      have hnd1 : ((S ++ [(keeperName (shaOf r'), shaOf r')]).map Prod.fst).Nodup := by
        rw [List.map_append]
        simp [List.nodup_append, hnd, hfresh]
      have htip1 : ∀ r ∈ rs, ∀ v,
          (keeperName (shaOf r), v) ∈ S ++ [(keeperName (shaOf r'), shaOf r')] →
          v = shaOf r := by
        intro r hr v hv
        rcases List.mem_append.mp hv with hvS | hvNew
        · exact htip r (List.mem_cons_of_mem _ hr) v hvS
        · have he := List.mem_singleton.mp hvNew
          have hn : keeperName (shaOf r) = keeperName (shaOf r') :=
            ((Prod.mk.injEq _ _ _ _).mp he).1
          have hs : shaOf r = shaOf r' := keeperName_inj _ _ hn
          rw [((Prod.mk.injEq _ _ _ _).mp he).2, hs]
      obtain ⟨M, hM1, hM2, hM3⟩ := anchorList_extend shaOf rs _ hnd1 htip1
      refine ⟨(keeperName (shaOf r'), shaOf r') :: M, ?_, ?_, ?_⟩
      · rw [hM1, List.append_assoc]
        rfl
      · intro m hm
        rcases List.mem_cons.mp hm with heq | hm'
        · exact ⟨⟨r', List.mem_cons_self _ _, heq⟩, heq ▸ hfresh⟩
        · refine ⟨(hM2 m hm').1.imp (fun r hr => ⟨List.mem_cons_of_mem _ hr.1, hr.2⟩), ?_⟩
          intro hcon
          apply (hM2 m hm').2
          rw [List.map_append]
          exact List.mem_append_left _ hcon
      · rw [List.map_cons, List.nodup_cons]
        refine ⟨?_, hM3⟩
        intro hcon
        obtain ⟨m, hm, hmn⟩ := List.mem_map.mp hcon
        apply (hM2 m hm).2
        rw [List.map_append, hmn]
        exact List.mem_append_right _ (by simp)

/-- Full characterization of the per-reference pruning body: the redundancy
rule either fires with the anchor present (deleting it), fires with the
anchor absent (failing), or does not fire; the ancestor sweep happens in
every case. -/
theorem cleanupSha_spec (anc : String → String → Bool) (st : GitState)
    (sha : String) (tag : Bool) :
    ((!tag && decide
        (((st.filter (fun p => !(anc p.2 sha && p.1 != keeperName sha))).filter
          (fun p => anc sha p.2)).length > 1)) = true ∧
      hasBranch (st.filter (fun p => !(anc p.2 sha && p.1 != keeperName sha)))
        (keeperName sha) = true ∧
      (cleanupSha anc st sha tag).1 =
        (st.filter (fun p => !(anc p.2 sha && p.1 != keeperName sha))).filter
          (fun p => p.1 != keeperName sha) ∧
      (cleanupSha anc st sha tag).2.2 = none) ∨
    ((!tag && decide
        (((st.filter (fun p => !(anc p.2 sha && p.1 != keeperName sha))).filter
          (fun p => anc sha p.2)).length > 1)) = true ∧
      hasBranch (st.filter (fun p => !(anc p.2 sha && p.1 != keeperName sha)))
        (keeperName sha) = false ∧
      (cleanupSha anc st sha tag).2.2 = some (.branchNotFound (keeperName sha))) ∨
    ((!tag && decide
        (((st.filter (fun p => !(anc p.2 sha && p.1 != keeperName sha))).filter
          (fun p => anc sha p.2)).length > 1)) = false ∧
      (cleanupSha anc st sha tag).1 =
        st.filter (fun p => !(anc p.2 sha && p.1 != keeperName sha)) ∧
      (cleanupSha anc st sha tag).2.2 = none) := by
  by_cases hfire : (!tag && decide
      (((st.filter (fun p => !(anc p.2 sha && p.1 != keeperName sha))).filter
        (fun p => anc sha p.2)).length > 1)) = true
  · by_cases hhas : hasBranch
        (st.filter (fun p => !(anc p.2 sha && p.1 != keeperName sha)))
        (keeperName sha) = true
    · refine Or.inl ⟨hfire, hhas, ?_, ?_⟩ <;>
        · simp only [cleanupSha]
          rw [if_pos hfire, if_pos hhas]
    · rw [Bool.not_eq_true] at hhas
      refine Or.inr (Or.inl ⟨hfire, hhas, ?_⟩)
      simp only [cleanupSha]
      rw [if_pos hfire, if_neg (by rw [hhas]; exact Bool.false_ne_true)]
  · rw [Bool.not_eq_true] at hfire
    refine Or.inr (Or.inr ⟨hfire, ?_, ?_⟩) <;>
      · simp only [cleanupSha]
        rw [if_neg (by rw [hfire]; exact Bool.false_ne_true)]

/-- A successful pruning pass over a list decomposes into a successful head
step followed by a successful pass over the tail. -/
theorem cleanupList_cons_none (anc : String → String → Bool) (shaOf : Ref → String)
    (st : GitState) (r : Ref) (rs : List Ref) (Xf : GitState) (mX : List Mut)
    (h : cleanupList anc shaOf st (r :: rs) = (Xf, mX, none)) :
    (cleanupSha anc st (shaOf r) r.tag).2.2 = none ∧
    ∃ m2, cleanupList anc shaOf (cleanupSha anc st (shaOf r) r.tag).1 rs =
      (Xf, m2, none) := by
  cases hcs : cleanupSha anc st (shaOf r) r.tag with
  | mk st1 rest =>
    cases rest with
    | mk m1 e =>
      cases e with
      | some e' =>
        rw [cleanupList, hcs] at h
        dsimp only at h
        exact absurd (congrArg (fun t => t.2.2) h) (by simp)
      | none =>
        rw [cleanupList, hcs] at h
        dsimp only at h
        cases hcl : cleanupList anc shaOf st1 rs with
        | mk st2 rest2 =>
          cases rest2 with
          | mk m2 e2 =>
            rw [hcl] at h
            dsimp only at h
            have h1 : st2 = Xf := congrArg (fun t => t.1) h
            have h3 : e2 = none := congrArg (fun t => t.2.2) h
            refine ⟨rfl, m2, ?_⟩
            dsimp only
            rw [h1, h3]

/-- Conversely, a successful head step and a successful tail pass assemble
into a successful pass over the whole list. -/
theorem cleanupList_cons_build (anc : String → String → Bool) (shaOf : Ref → String)
    (st : GitState) (r : Ref) (rs : List Ref) (Y2 : GitState) (m1 : List Mut)
    (Yf : GitState) (m2 : List Mut)
    (h1 : cleanupSha anc st (shaOf r) r.tag = (Y2, m1, none))
    (h2 : cleanupList anc shaOf Y2 rs = (Yf, m2, none)) :
    cleanupList anc shaOf st (r :: rs) = (Yf, m1 ++ m2, none) := by
  rw [cleanupList, h1]
  dsimp only
  rw [h2]

/-- Sweeping a list by a predicate is a permutation-preserving split. -/
theorem perm_filter_split (l : GitState) (p : String × String → Bool)
    (q : String × String → Bool) (h : ∀ x ∈ l, q x = !p x) :
    l.Perm (l.filter p ++ l.filter q) := by
  have hq : l.filter q = l.filter (fun x => !p x) :=
    List.filter_congr (fun x hx => h x hx)
  rw [hq]
  exact (List.filter_append_perm p l).symm

/-- Names of a filtered branch list stay unique. -/
theorem nodup_filter_names (l : GitState) (p : String × String → Bool)
    (h : (l.map Prod.fst).Nodup) : ((l.filter p).map Prod.fst).Nodup :=
  h.sublist (List.Sublist.map Prod.fst (List.filter_sublist l))

/-- Every branch deleted during a successful pruning pass had its tip
merged into one of the pass's resolved commits: the surviving state plus
the deleted branches is a permutation of the start state, and each deleted
branch is doomed by some reference of the list. -/
theorem cleanupList_perm_doomed (anc : String → String → Bool) (shaOf : Ref → String) :
    ∀ (rs : List Ref) (X Xf : GitState) (mX : List Mut),
    (X.map Prod.fst).Nodup →
    (∀ r ∈ rs, ∀ v, (keeperName (shaOf r), v) ∈ X → v = shaOf r) →
    (∀ r ∈ rs, anc (shaOf r) (shaOf r) = true) →
    cleanupList anc shaOf X rs = (Xf, mX, none) →
    ∃ D, X.Perm (Xf ++ D) ∧ ∀ d ∈ D, ∃ j ∈ rs, anc d.2 (shaOf j) = true
  | [], X, Xf, mX, _, _, _, h => by
    have h1 : X = Xf := congrArg (fun t => t.1) h
    exact ⟨[], by simp [h1], by simp⟩
  | r :: rs, X, Xf, mX, hnd, htip, hrefl, h => by
    obtain ⟨he, m2, htail⟩ := cleanupList_cons_none anc shaOf X r rs Xf mX h
    have hC : X.Perm
        (X.filter (fun p => !(anc p.2 (shaOf r) && p.1 != keeperName (shaOf r))) ++
         X.filter (fun p => anc p.2 (shaOf r) && p.1 != keeperName (shaOf r))) :=
      perm_filter_split X _ _ (fun x _ => (Bool.not_not _).symm)
    have hCdoom : ∀ d ∈ X.filter
        (fun p => anc p.2 (shaOf r) && p.1 != keeperName (shaOf r)),
        anc d.2 (shaOf r) = true := by
      intro d hd
      have hdp := (List.mem_filter.mp hd).2
      rw [Bool.and_eq_true] at hdp
      exact hdp.1
    have hndX1 : ((X.filter (fun p =>
        !(anc p.2 (shaOf r) && p.1 != keeperName (shaOf r)))).map Prod.fst).Nodup :=
      nodup_filter_names X _ hnd
    rcases cleanupSha_spec anc X (shaOf r) r.tag with
      ⟨hfire, hhas, hst, hen⟩ | ⟨hfire, hhas, hen⟩ | ⟨hfire, hst, hen⟩
    · -- the redundancy rule fired and deleted the anchor
      rw [hst] at htail
      have hK : (X.filter (fun p =>
          !(anc p.2 (shaOf r) && p.1 != keeperName (shaOf r)))).Perm
          ((X.filter (fun p =>
            !(anc p.2 (shaOf r) && p.1 != keeperName (shaOf r)))).filter
              (fun p => p.1 != keeperName (shaOf r)) ++
           (X.filter (fun p =>
            !(anc p.2 (shaOf r) && p.1 != keeperName (shaOf r)))).filter
              (fun p => p.1 == keeperName (shaOf r))) :=
        perm_filter_split _ _ _ (fun x _ => by
          show (x.1 == keeperName (shaOf r)) = !(!(x.1 == keeperName (shaOf r)))
          rw [Bool.not_not])
      have hKdoom : ∀ d ∈ (X.filter (fun p =>
          !(anc p.2 (shaOf r) && p.1 != keeperName (shaOf r)))).filter
            (fun p => p.1 == keeperName (shaOf r)),
          anc d.2 (shaOf r) = true := by
        intro d hd
        have hdn : (d.1 == keeperName (shaOf r)) = true := (List.mem_filter.mp hd).2
        have hdX : d ∈ X := (List.mem_filter.mp (List.mem_filter.mp hd).1).1
        have hde : d = (keeperName (shaOf r), d.2) := by
          obtain ⟨d1, d2⟩ := d
          have hd1 : d1 = keeperName (shaOf r) := by simpa using hdn
          rw [hd1]
        have hv : d.2 = shaOf r := by
          apply htip r (List.mem_cons_self _ _)
          rw [← hde]
          exact hdX
        rw [hv]
        exact hrefl r (List.mem_cons_self _ _)
      obtain ⟨D', hperm', hdoom'⟩ := cleanupList_perm_doomed anc shaOf rs _ Xf m2
        (nodup_filter_names _ _ hndX1)
        (fun r' hr' v hv => htip r' (List.mem_cons_of_mem _ hr') v
          (List.mem_filter.mp (List.mem_filter.mp hv).1).1)
        (fun r' hr' => hrefl r' (List.mem_cons_of_mem _ hr'))
        htail
      refine ⟨D' ++ ((X.filter (fun p =>
          !(anc p.2 (shaOf r) && p.1 != keeperName (shaOf r)))).filter
            (fun p => p.1 == keeperName (shaOf r)) ++
          X.filter (fun p => anc p.2 (shaOf r) && p.1 != keeperName (shaOf r))), ?_, ?_⟩
      · have step1 := hC.trans (hK.append_right _)
        have step2 := step1.trans ((hperm'.append_right _).append_right _)
        have heq : ((Xf ++ D') ++ (X.filter (fun p =>
            !(anc p.2 (shaOf r) && p.1 != keeperName (shaOf r)))).filter
              (fun p => p.1 == keeperName (shaOf r))) ++
            X.filter (fun p => anc p.2 (shaOf r) && p.1 != keeperName (shaOf r)) =
            Xf ++ (D' ++ ((X.filter (fun p =>
              !(anc p.2 (shaOf r) && p.1 != keeperName (shaOf r)))).filter
                (fun p => p.1 == keeperName (shaOf r)) ++
              X.filter (fun p => anc p.2 (shaOf r) && p.1 != keeperName (shaOf r)))) := by
          simp [List.append_assoc]
        exact heq ▸ step2
      · intro d hd
        rcases List.mem_append.mp hd with hd' | hd''
        · obtain ⟨j, hj, hja⟩ := hdoom' d hd'
          exact ⟨j, List.mem_cons_of_mem _ hj, hja⟩
        · rcases List.mem_append.mp hd'' with hdK | hdC
          · exact ⟨r, List.mem_cons_self _ _, hKdoom d hdK⟩
          · exact ⟨r, List.mem_cons_self _ _, hCdoom d hdC⟩
    · rw [hen] at he
      exact absurd he (by simp)
    · -- the redundancy rule did not fire
      rw [hst] at htail
      obtain ⟨D', hperm', hdoom'⟩ := cleanupList_perm_doomed anc shaOf rs _ Xf m2
        hndX1
        (fun r' hr' v hv => htip r' (List.mem_cons_of_mem _ hr') v
          (List.mem_filter.mp hv).1)
        (fun r' hr' => hrefl r' (List.mem_cons_of_mem _ hr'))
        htail
      refine ⟨D' ++ X.filter (fun p => anc p.2 (shaOf r) && p.1 != keeperName (shaOf r)),
        ?_, ?_⟩
      · have step1 := hC.trans (hperm'.append_right _)
        have heq : (Xf ++ D') ++
            X.filter (fun p => anc p.2 (shaOf r) && p.1 != keeperName (shaOf r)) =
            Xf ++ (D' ++
            X.filter (fun p => anc p.2 (shaOf r) && p.1 != keeperName (shaOf r))) := by
          simp [List.append_assoc]
        exact heq ▸ step1
      · intro d hd
        rcases List.mem_append.mp hd with hd' | hdC
        · obtain ⟨j, hj, hja⟩ := hdoom' d hd'
          exact ⟨j, List.mem_cons_of_mem _ hj, hja⟩
        · exact ⟨r, List.mem_cons_self _ _, hCdoom d hdC⟩

/-- A name-unique selection of members can be split off a name-unique list
as a permutation, the complement avoiding all selected names. -/
theorem perm_extract_sub :
    ∀ (M L : GitState),
    (L.map Prod.fst).Nodup → (∀ m ∈ M, m ∈ L) → (M.map Prod.fst).Nodup →
    ∃ D, L.Perm (M ++ D) ∧ ∀ d ∈ D, d ∈ L ∧ d.1 ∉ M.map Prod.fst
  | [], L, _, _, _ => ⟨L, by simp, fun d hd => ⟨hd, by simp⟩⟩
  | m :: M, L, hndL, hsub, hndM => by
    obtain ⟨m1, m2⟩ := m
    have hnames := List.map_cons Prod.fst (m1, m2) M ▸ hndM
    rw [List.nodup_cons] at hnames
    have hmL : (m1, m2) ∈ L := hsub _ (List.mem_cons_self _ _)
    have hLp : L.Perm ((m1, m2) :: L.filter (fun p => p.1 != m1)) :=
      perm_cons_filter_ne L m1 m2 hndL hmL
    have hndL' : ((L.filter (fun p => p.1 != m1)).map Prod.fst).Nodup :=
      nodup_filter_names L _ hndL
    have hsub' : ∀ x ∈ M, x ∈ L.filter (fun p => p.1 != m1) := by
      intro x hx
      refine List.mem_filter.mpr ⟨hsub x (List.mem_cons_of_mem _ hx), ?_⟩
      simp only [bne_iff_ne, ne_eq, decide_eq_true_eq]
      intro hcon
      exact hnames.1 (hcon ▸ List.mem_map.mpr ⟨x, hx, rfl⟩)
    obtain ⟨D, hD1, hD2⟩ := perm_extract_sub M (L.filter (fun p => p.1 != m1))
      hndL' hsub' hnames.2
    refine ⟨D, hLp.trans ?_, ?_⟩
    · exact hD1.cons (m1, m2)
    · intro d hd
      obtain ⟨hdL', hdM⟩ := hD2 d hd
      have hdL : d ∈ L := (List.mem_filter.mp hdL').1
      have hdm1 : d.1 ≠ m1 := by
        have := (List.mem_filter.mp hdL').2
        simpa using this
      refine ⟨hdL, ?_⟩
      rw [List.map_cons, List.mem_cons]
      rintro (hc | hc)
      · exact hdm1 hc
      · exact hdM hc

/-- Rebuild a step result from its state and error projections. -/
theorem pair_of_proj (t : GitState × List Mut × Option GitErr) (a : GitState)
    (h1 : t.1 = a) (h3 : t.2.2 = none) : t = (a, t.2.1, none) := by
  obtain ⟨x, y, z⟩ := t
  dsimp only at h1 h3 ⊢
  rw [h1, h3]

/-- The coupled pruning argument.  The first run's pass (from `X`) succeeds;
the second run's state `Y` differs from `X` only by a remainder `D` of
branches that carry no anchor name of the remaining references, are each
doomed (merged into some remaining resolved commit), and are shielded by
still-present anchors (a missing anchor of a remaining reference implies no
remainder branch is merged into its commit).  Then the pass from `Y` also
succeeds and both passes converge to the same branch set. -/
theorem cleanup_pair (anc : String → String → Bool) (shaOf : Ref → String)
    (htrans : ∀ a b c, anc a b = true → anc b c = true → anc a c = true)
    (hanti : ∀ a b, anc a b = true → anc b a = true → a = b) :
    ∀ (rs : List Ref) (X Y D Xf : GitState) (mX : List Mut),
    (∀ r ∈ rs, anc (shaOf r) (shaOf r) = true) →
    cleanupList anc shaOf X rs = (Xf, mX, none) →
    X.Perm (Y ++ D) →
    (Y.map Prod.fst).Nodup →
    (∀ d ∈ D, ∀ r ∈ rs, d.1 ≠ keeperName (shaOf r)) →
    (∀ d ∈ D, ∃ j ∈ rs, anc d.2 (shaOf j) = true) →
    (∀ r ∈ rs, ∀ v, (keeperName (shaOf r), v) ∈ Y → v = shaOf r) →
    (∀ j ∈ rs, hasBranch Y (keeperName (shaOf j)) = false →
        ∀ d ∈ D, anc d.2 (shaOf j) = false) →
    ∃ Yf mY, cleanupList anc shaOf Y rs = (Yf, mY, none) ∧ Xf.Perm Yf
  | [], X, Y, D, Xf, mX, _, hrun, hperm, _, _, hP4, _, _ => by
    have hD : D = [] := List.eq_nil_iff_forall_not_mem.mpr (fun d hd => by
      obtain ⟨j, hj, _⟩ := hP4 d hd
      exact absurd hj (List.not_mem_nil j))
    have hXf : X = Xf := congrArg (fun t => t.1) hrun
    refine ⟨Y, [], rfl, ?_⟩
    rw [← hXf]
    subst hD
    simpa using hperm
  | r :: tl, X, Y, D, Xf, mX, hrefl, hrun, hperm, hndY, hP3, hP4, hP5, hP6 => by
    obtain ⟨he, m2, htail⟩ := cleanupList_cons_none anc shaOf X r tl Xf mX hrun
    have hpermF : (X.filter (fun p =>
        !(anc p.2 (shaOf r) && p.1 != keeperName (shaOf r)))).Perm
        (Y.filter (fun p => !(anc p.2 (shaOf r) && p.1 != keeperName (shaOf r))) ++
         D.filter (fun p => !(anc p.2 (shaOf r) && p.1 != keeperName (shaOf r)))) := by
      have hf := hperm.filter
        (fun p => !(anc p.2 (shaOf r) && p.1 != keeperName (shaOf r)))
      rwa [List.filter_append] at hf
    have hcnt : (((X.filter (fun p =>
        !(anc p.2 (shaOf r) && p.1 != keeperName (shaOf r)))).filter
          (fun p => anc (shaOf r) p.2)).length) =
        (((Y.filter (fun p =>
        !(anc p.2 (shaOf r) && p.1 != keeperName (shaOf r)))).filter
          (fun p => anc (shaOf r) p.2)).length) +
        (((D.filter (fun p =>
        !(anc p.2 (shaOf r) && p.1 != keeperName (shaOf r)))).filter
          (fun p => anc (shaOf r) p.2)).length) := by
      have h2 := (hpermF.filter (fun p => anc (shaOf r) p.2)).length_eq
      rwa [List.filter_append, List.length_append] at h2
    -- a branch of the remainder that survives the sweep cannot be doomed by
    -- the head reference, so its doom lies in the tail
    have hP4' : ∀ d ∈ D.filter (fun p =>
        !(anc p.2 (shaOf r) && p.1 != keeperName (shaOf r))),
        ∃ j ∈ tl, anc d.2 (shaOf j) = true := by
      intro d hd
      obtain ⟨hdD, hdp⟩ := List.mem_filter.mp hd
      have hname : (d.1 != keeperName (shaOf r)) = true := by
        simp only [bne_iff_ne, ne_eq, decide_eq_true_eq]
        exact hP3 d hdD r (List.mem_cons_self _ _)
      have hnotanc : anc d.2 (shaOf r) = false := by
        rw [Bool.not_eq_eq_eq_not, Bool.not_true, Bool.and_eq_false_iff] at hdp
        rcases hdp with h' | h'
        · exact h'
        · rw [hname] at h'
          exact absurd h' (by simp)
      obtain ⟨j, hj, hdj⟩ := hP4 d hdD
      rcases List.mem_cons.mp hj with heq | hj'
      · rw [heq] at hdj
        rw [hdj] at hnotanc
        exact absurd hnotanc (by simp)
      · exact ⟨j, hj', hdj⟩
    -- anchor-named entries of the swept first-run state already live in the
    -- swept second-run state
    have hmemXY : ∀ v, (keeperName (shaOf r), v) ∈ X.filter (fun p =>
        !(anc p.2 (shaOf r) && p.1 != keeperName (shaOf r))) →
        (keeperName (shaOf r), v) ∈ Y.filter (fun p =>
        !(anc p.2 (shaOf r) && p.1 != keeperName (shaOf r))) := by
      intro v hv
      rcases List.mem_append.mp (hpermF.mem_iff.mp hv) with h | h
      · exact h
      · exfalso
        exact hP3 _ (List.mem_filter.mp h).1 r (List.mem_cons_self _ _) rfl
    rcases cleanupSha_spec anc X (shaOf r) r.tag with
      ⟨hfireX, hhasX, hstX, _⟩ | ⟨_, _, henX⟩ | ⟨hfireX, hstX, _⟩
    · -- first run fired and deleted the anchor; show the second run does too
      rw [hstX] at htail
      obtain ⟨vk, hvk⟩ := hasBranch_mem_exists _ _ hhasX
      have hvkY := hmemXY vk hvk
      have hvks : vk = shaOf r :=
        hP5 r (List.mem_cons_self _ _) vk (List.mem_filter.mp hvkY).1
      rw [hvks] at hvkY
      rw [Bool.and_eq_true] at hfireX
      have hcntY : ((Y.filter (fun p =>
          !(anc p.2 (shaOf r) && p.1 != keeperName (shaOf r)))).filter
            (fun p => anc (shaOf r) p.2)).length > 1 := by
        cases hDf : (D.filter (fun p =>
            !(anc p.2 (shaOf r) && p.1 != keeperName (shaOf r)))).filter
              (fun p => anc (shaOf r) p.2) with
        | nil =>
          have hx := of_decide_eq_true hfireX.2
          rw [hcnt, hDf] at hx
          simpa using hx
        | cons d ds =>
          have hdmem : d ∈ (D.filter (fun p =>
              !(anc p.2 (shaOf r) && p.1 != keeperName (shaOf r)))).filter
                (fun p => anc (shaOf r) p.2) := hDf ▸ List.mem_cons_self d ds
          obtain ⟨hdD', hdg⟩ := List.mem_filter.mp hdmem
          obtain ⟨j, hj, hdj⟩ := hP4' d hdD'
          have hsj : anc (shaOf r) (shaOf j) = true := htrans _ _ _ hdg hdj
          by_cases hjs : shaOf j = shaOf r
          · exfalso
            rw [hjs] at hdj
            obtain ⟨hdD, hdp⟩ := List.mem_filter.mp hdD'
            have hname : (d.1 != keeperName (shaOf r)) = true := by
              simp only [bne_iff_ne, ne_eq, decide_eq_true_eq]
              exact hP3 d hdD r (List.mem_cons_self _ _)
            rw [Bool.not_eq_eq_eq_not, Bool.not_true, Bool.and_eq_false_iff] at hdp
            rcases hdp with h' | h'
            · rw [hdj] at h'
              exact absurd h' (by simp)
            · rw [hname] at h'
              exact absurd h' (by simp)
          · have hkk : keeperName (shaOf j) ≠ keeperName (shaOf r) :=
              fun hcon => hjs (keeperName_inj _ _ hcon)
            have hbj : hasBranch Y (keeperName (shaOf j)) = true := by
              by_cases hb : hasBranch Y (keeperName (shaOf j)) = true
              · exact hb
              · exfalso
                rw [Bool.not_eq_true] at hb
                have := hP6 j (List.mem_cons_of_mem _ hj) hb d
                  (List.mem_filter.mp hdD').1
                rw [hdj] at this
                exact absurd this (by simp)
            obtain ⟨vj, hvj⟩ := hasBranch_mem_exists _ _ hbj
            have hvjs : vj = shaOf j := hP5 j (List.mem_cons_of_mem _ hj) vj hvj
            rw [hvjs] at hvj
            have hjnotanc : anc (shaOf j) (shaOf r) = false := by
              by_cases ha : anc (shaOf j) (shaOf r) = true
              · exact absurd (hanti _ _ hsj ha).symm hjs
              · exact Bool.not_eq_true _ ▸ ha
            have hvjY' : (keeperName (shaOf j), shaOf j) ∈ Y.filter (fun p =>
                !(anc p.2 (shaOf r) && p.1 != keeperName (shaOf r))) :=
              List.mem_filter.mpr ⟨hvj, by simp [hjnotanc]⟩
            have hmem1 : (keeperName (shaOf r), shaOf r) ∈ (Y.filter (fun p =>
                !(anc p.2 (shaOf r) && p.1 != keeperName (shaOf r)))).filter
                  (fun p => anc (shaOf r) p.2) :=
              List.mem_filter.mpr ⟨hvkY, by
                simpa using hrefl r (List.mem_cons_self _ _)⟩
            have hmem2 : (keeperName (shaOf j), shaOf j) ∈ (Y.filter (fun p =>
                !(anc p.2 (shaOf r) && p.1 != keeperName (shaOf r)))).filter
                  (fun p => anc (shaOf r) p.2) :=
              List.mem_filter.mpr ⟨hvjY', by simpa using hsj⟩
            have hne : (keeperName (shaOf r), shaOf r) ≠
                (keeperName (shaOf j), shaOf j) :=
              fun hcon => hkk (congrArg Prod.fst hcon).symm
            have := two_le_length_of_mem _ _ _ hmem1 hmem2 hne
            omega
      have hfireY : (!r.tag && decide (((Y.filter (fun p =>
          !(anc p.2 (shaOf r) && p.1 != keeperName (shaOf r)))).filter
            (fun p => anc (shaOf r) p.2)).length > 1)) = true := by
        rw [Bool.and_eq_true]
        exact ⟨hfireX.1, decide_eq_true hcntY⟩
      rcases cleanupSha_spec anc Y (shaOf r) r.tag with
        ⟨_, _, hstY, heY⟩ | ⟨_, hhasY, _⟩ | ⟨hfY', _, _⟩
      · -- both runs delete the anchor; recurse on the tail
        have hpermF2 : ((X.filter (fun p =>
            !(anc p.2 (shaOf r) && p.1 != keeperName (shaOf r)))).filter
              (fun p => p.1 != keeperName (shaOf r))).Perm
            (((Y.filter (fun p =>
            !(anc p.2 (shaOf r) && p.1 != keeperName (shaOf r)))).filter
              (fun p => p.1 != keeperName (shaOf r))) ++
             ((D.filter (fun p =>
            !(anc p.2 (shaOf r) && p.1 != keeperName (shaOf r)))).filter
              (fun p => p.1 != keeperName (shaOf r)))) := by
          have hf := hpermF.filter (fun p => p.1 != keeperName (shaOf r))
          rwa [List.filter_append] at hf
        obtain ⟨Yf, mY2, hrunYtl, hpermf⟩ := cleanup_pair anc shaOf htrans hanti tl
          ((X.filter (fun p =>
            !(anc p.2 (shaOf r) && p.1 != keeperName (shaOf r)))).filter
              (fun p => p.1 != keeperName (shaOf r)))
          ((Y.filter (fun p =>
            !(anc p.2 (shaOf r) && p.1 != keeperName (shaOf r)))).filter
              (fun p => p.1 != keeperName (shaOf r)))
          ((D.filter (fun p =>
            !(anc p.2 (shaOf r) && p.1 != keeperName (shaOf r)))).filter
              (fun p => p.1 != keeperName (shaOf r)))
          Xf m2
          (fun r' hr' => hrefl r' (List.mem_cons_of_mem _ hr'))
          htail hpermF2
          (nodup_filter_names _ _ (nodup_filter_names _ _ hndY))
          (fun d hd r' hr' => hP3 d
            (List.mem_filter.mp (List.mem_filter.mp hd).1).1 r'
            (List.mem_cons_of_mem _ hr'))
          (fun d hd => hP4' d (List.mem_filter.mp hd).1)
          (fun r' hr' v hv => hP5 r' (List.mem_cons_of_mem _ hr') v
            (List.mem_filter.mp (List.mem_filter.mp hv).1).1)
          (by
            intro j hj hbj2 d hd
            have hdD' := (List.mem_filter.mp hd).1
            have hdD := (List.mem_filter.mp hdD').1
            by_cases hbj : hasBranch Y (keeperName (shaOf j)) = true
            · obtain ⟨vj, hvj⟩ := hasBranch_mem_exists _ _ hbj
              have hvjs : vj = shaOf j := hP5 j (List.mem_cons_of_mem _ hj) vj hvj
              rw [hvjs] at hvj
              have hnotY2 : (keeperName (shaOf j), shaOf j) ∉ (Y.filter (fun p =>
                  !(anc p.2 (shaOf r) && p.1 != keeperName (shaOf r)))).filter
                    (fun p => p.1 != keeperName (shaOf r)) := by
                intro hcon
                have hx := hasBranch_of_mem _ _ _ hcon
                rw [hbj2] at hx
                exact Bool.false_ne_true hx
              by_cases hpredj : (!(anc (shaOf j) (shaOf r) &&
                  keeperName (shaOf j) != keeperName (shaOf r))) = true
              · -- the anchor survived the sweep, so it was the deleted anchor
                have hYj : (keeperName (shaOf j), shaOf j) ∈ Y.filter (fun p =>
                    !(anc p.2 (shaOf r) && p.1 != keeperName (shaOf r))) :=
                  List.mem_filter.mpr ⟨hvj, hpredj⟩
                have hkjk : (keeperName (shaOf j) != keeperName (shaOf r)) = false := by
                  by_cases hb : (keeperName (shaOf j) != keeperName (shaOf r)) = true
                  · exact absurd (List.mem_filter.mpr ⟨hYj, hb⟩) hnotY2
                  · exact Bool.not_eq_true _ ▸ hb
                have hjs : shaOf j = shaOf r :=
                  keeperName_inj _ _ (by simpa using hkjk)
                have hname : (d.1 != keeperName (shaOf r)) = true := by
                  simp only [bne_iff_ne, ne_eq, decide_eq_true_eq]
                  exact hP3 d hdD r (List.mem_cons_self _ _)
                have hdp := (List.mem_filter.mp hdD').2
                rw [Bool.not_eq_eq_eq_not, Bool.not_true, Bool.and_eq_false_iff] at hdp
                rw [hjs]
                rcases hdp with h' | h'
                · exact h'
                · rw [hname] at h'
                  exact absurd h' (by simp)
              · -- the anchor was swept: its tip is merged into the head commit
                have hpredj' : (anc (shaOf j) (shaOf r) &&
                    keeperName (shaOf j) != keeperName (shaOf r)) = true := by
                  rw [Bool.not_eq_true] at hpredj
                  rw [Bool.not_eq_eq_eq_not, Bool.not_false] at hpredj
                  exact hpredj
                rw [Bool.and_eq_true] at hpredj'
                by_cases hda : anc d.2 (shaOf j) = true
                · exfalso
                  have hds : anc d.2 (shaOf r) = true :=
                    htrans _ _ _ hda hpredj'.1
                  have hname : (d.1 != keeperName (shaOf r)) = true := by
                    simp only [bne_iff_ne, ne_eq, decide_eq_true_eq]
                    exact hP3 d hdD r (List.mem_cons_self _ _)
                  have hdp := (List.mem_filter.mp hdD').2
                  rw [Bool.not_eq_eq_eq_not, Bool.not_true,
                    Bool.and_eq_false_iff] at hdp
                  rcases hdp with h' | h'
                  · rw [hds] at h'
                    exact absurd h' (by simp)
                  · rw [hname] at h'
                    exact absurd h' (by simp)
                · exact Bool.not_eq_true _ ▸ hda
            · rw [Bool.not_eq_true] at hbj
              exact hP6 j (List.mem_cons_of_mem _ hj) hbj d hdD)
        have hstep : cleanupSha anc Y (shaOf r) r.tag =
            ((Y.filter (fun p =>
              !(anc p.2 (shaOf r) && p.1 != keeperName (shaOf r)))).filter
                (fun p => p.1 != keeperName (shaOf r)),
             (cleanupSha anc Y (shaOf r) r.tag).2.1, none) :=
          pair_of_proj _ _ hstY heY
        exact ⟨Yf, (cleanupSha anc Y (shaOf r) r.tag).2.1 ++ mY2,
          cleanupList_cons_build anc shaOf Y r tl _ _ Yf mY2 hstep hrunYtl, hpermf⟩
      · exfalso
        have hx := hasBranch_of_mem _ _ _ hvkY
        rw [hhasY] at hx
        exact Bool.false_ne_true hx
      · exfalso
        rw [hfY'] at hfireY
        exact Bool.false_ne_true hfireY
    · exfalso
      rw [henX] at he
      exact Option.noConfusion he
    · -- the redundancy rule did not fire for the first run, hence not for the second
      rw [hstX] at htail
      have hfireY : (!r.tag && decide (((Y.filter (fun p =>
          !(anc p.2 (shaOf r) && p.1 != keeperName (shaOf r)))).filter
            (fun p => anc (shaOf r) p.2)).length > 1)) = false := by
        rcases Bool.and_eq_false_iff.mp hfireX with h1 | h1
        · rw [h1, Bool.false_and]
        · have hx := of_decide_eq_false h1
          have hy : ¬ (((Y.filter (fun p =>
              !(anc p.2 (shaOf r) && p.1 != keeperName (shaOf r)))).filter
                (fun p => anc (shaOf r) p.2)).length > 1) := by omega
          rw [decide_eq_false hy, Bool.and_false]
      rcases cleanupSha_spec anc Y (shaOf r) r.tag with
        ⟨hfY', _, _, _⟩ | ⟨hfY', _, _⟩ | ⟨_, hstY, heY⟩
      · exfalso
        rw [hfireY] at hfY'
        exact Bool.false_ne_true hfY'
      · exfalso
        rw [hfireY] at hfY'
        exact Bool.false_ne_true hfY'
      · obtain ⟨Yf, mY2, hrunYtl, hpermf⟩ := cleanup_pair anc shaOf htrans hanti tl
          (X.filter (fun p =>
            !(anc p.2 (shaOf r) && p.1 != keeperName (shaOf r))))
          (Y.filter (fun p =>
            !(anc p.2 (shaOf r) && p.1 != keeperName (shaOf r))))
          (D.filter (fun p =>
            !(anc p.2 (shaOf r) && p.1 != keeperName (shaOf r))))
          Xf m2
          (fun r' hr' => hrefl r' (List.mem_cons_of_mem _ hr'))
          htail hpermF
          (nodup_filter_names _ _ hndY)
          (fun d hd r' hr' => hP3 d (List.mem_filter.mp hd).1 r'
            (List.mem_cons_of_mem _ hr'))
          hP4'
          (fun r' hr' v hv => hP5 r' (List.mem_cons_of_mem _ hr') v
            (List.mem_filter.mp hv).1)
          (by
            intro j hj hbj2 d hd
            have hdD := (List.mem_filter.mp hd).1
            by_cases hbj : hasBranch Y (keeperName (shaOf j)) = true
            · obtain ⟨vj, hvj⟩ := hasBranch_mem_exists _ _ hbj
              have hvjs : vj = shaOf j := hP5 j (List.mem_cons_of_mem _ hj) vj hvj
              rw [hvjs] at hvj
              have hnotY2 : (keeperName (shaOf j), shaOf j) ∉ Y.filter (fun p =>
                  !(anc p.2 (shaOf r) && p.1 != keeperName (shaOf r))) := by
                intro hcon
                have hx := hasBranch_of_mem _ _ _ hcon
                rw [hbj2] at hx
                exact Bool.false_ne_true hx
              have hpredj' : (anc (shaOf j) (shaOf r) &&
                  keeperName (shaOf j) != keeperName (shaOf r)) = true := by
                by_cases hb : (!(anc (shaOf j) (shaOf r) &&
                    keeperName (shaOf j) != keeperName (shaOf r))) = true
                · exact absurd (List.mem_filter.mpr ⟨hvj, hb⟩) hnotY2
                · rw [Bool.not_eq_true, Bool.not_eq_eq_eq_not, Bool.not_false] at hb
                  exact hb
              rw [Bool.and_eq_true] at hpredj'
              by_cases hda : anc d.2 (shaOf j) = true
              · exfalso
                have hds : anc d.2 (shaOf r) = true := htrans _ _ _ hda hpredj'.1
                have hname : (d.1 != keeperName (shaOf r)) = true := by
                  simp only [bne_iff_ne, ne_eq, decide_eq_true_eq]
                  exact hP3 d hdD r (List.mem_cons_self _ _)
                have hdp := (List.mem_filter.mp hd).2
                rw [Bool.not_eq_eq_eq_not, Bool.not_true,
                  Bool.and_eq_false_iff] at hdp
                rcases hdp with h' | h'
                · rw [hds] at h'
                  exact absurd h' (by simp)
                · rw [hname] at h'
                  exact absurd h' (by simp)
              · exact Bool.not_eq_true _ ▸ hda
            · rw [Bool.not_eq_true] at hbj
              exact hP6 j (List.mem_cons_of_mem _ hj) hbj d hdD)
        have hstep : cleanupSha anc Y (shaOf r) r.tag =
            (Y.filter (fun p =>
              !(anc p.2 (shaOf r) && p.1 != keeperName (shaOf r))),
             (cleanupSha anc Y (shaOf r) r.tag).2.1, none) :=
          pair_of_proj _ _ hstY heY
        exact ⟨Yf, (cleanupSha anc Y (shaOf r) r.tag).2.1 ++ mY2,
          cleanupList_cons_build anc shaOf Y r tl _ _ Yf mY2 hstep hrunYtl, hpermf⟩

/-- A reconciler result decomposes into the anchoring phase followed by the
pruning phase. -/
theorem reconcile_decomp (anc : String → String → Bool) (shaOf : Ref → String)
    (st : GitState) (refs : List Ref) (S : GitState) (m : List Mut)
    (e : Option GitErr) (h : reconcile anc shaOf st refs = (S, m, e)) :
    ∃ mc, cleanupList anc shaOf (anchorList shaOf st refs).1 refs = (S, mc, e) := by
  unfold reconcile at h
  cases hA : anchorList shaOf st refs with
  | mk st1 m1 =>
    rw [hA] at h
    dsimp only at h
    cases hC : cleanupList anc shaOf st1 refs with
    | mk st2 rest =>
      cases rest with
      | mk m2 e2 =>
        rw [hC] at h
        dsimp only at h
        have h1 : st2 = S := congrArg (fun t => t.1) h
        have h3 : e2 = e := congrArg (fun t => t.2.2) h
        refine ⟨m2, ?_⟩
        rw [h1, h3]

/-- Conversely, phase results assemble into a reconciler result. -/
theorem reconcile_build (anc : String → String → Bool) (shaOf : Ref → String)
    (st : GitState) (refs : List Ref) (st1 : GitState) (m1 : List Mut)
    (st2 : GitState) (m2 : List Mut) (e : Option GitErr)
    (h1 : anchorList shaOf st refs = (st1, m1))
    (h2 : cleanupList anc shaOf st1 refs = (st2, m2, e)) :
    reconcile anc shaOf st refs = (st2, m1 ++ m2, e) := by
  unfold reconcile
  rw [h1]
  dsimp only
  rw [h2]

/-- C3 (amended).  Re-running the Retention Reconciler over the same list of
Changed/New references, with no intervening change to any resolved commit id,
may well perform branch mutations (a redundant anchor deleted by the first
run is re-created by the unconditional anchoring step and re-deleted), but it
is idempotent at the state level: when reachability is reflexive on the
resolved commits, transitive and antisymmetric, and local branch names are
unique, a successful first run forces the second run to succeed and to end
with exactly the same set of local branches (the final states agree up to
the order of this model's branch-list representation, which git does not
expose). -/
theorem c3_rerun_preserves_state (anc : String → String → Bool)
    (shaOf : Ref → String) (st : GitState) (refs : List Ref)
    (htrans : ∀ a b c, anc a b = true → anc b c = true → anc a c = true)
    (hanti : ∀ a b, anc a b = true → anc b a = true → a = b)
    (hrefl : ∀ r ∈ refs, anc (shaOf r) (shaOf r) = true)
    (hnd : (st.map Prod.fst).Nodup)
    (S1 : GitState) (m1 : List Mut)
    (hrun1 : reconcile anc shaOf st refs = (S1, m1, none)) :
    ∃ S2 m2, reconcile anc shaOf S1 refs = (S2, m2, none) ∧ S2.Perm S1 := by
  obtain ⟨mc, hclean⟩ := reconcile_decomp anc shaOf st refs S1 m1 none hrun1
  have hndX0 := anchorList_nodup shaOf refs st hnd
  have htipX0 : ∀ r ∈ refs, ∀ v,
      (keeperName (shaOf r), v) ∈ (anchorList shaOf st refs).1 → v = shaOf r :=
    fun r hr v hv => anchorList_keeper_sha shaOf refs st hnd r hr v hv
  obtain ⟨Ddel, hpermDel, hdoomDel⟩ :=
    cleanupList_perm_doomed anc shaOf refs _ S1 mc hndX0 htipX0 hrefl hclean
  have hndAll : ((S1.map Prod.fst) ++ (Ddel.map Prod.fst)).Nodup := by
    have hx := (hpermDel.map Prod.fst).nodup_iff.mp hndX0
    rwa [List.map_append] at hx
  have hndS1 : (S1.map Prod.fst).Nodup := (List.nodup_append.mp hndAll).1
  have hndDdel : (Ddel.map Prod.fst).Nodup := (List.nodup_append.mp hndAll).2.1
  have htipS1 : ∀ r ∈ refs, ∀ v, (keeperName (shaOf r), v) ∈ S1 → v = shaOf r :=
    fun r hr v hv => htipX0 r hr v
      (hpermDel.mem_iff.mpr (List.mem_append_left _ hv))
  obtain ⟨M, hY0eq, hMprop, hMnd⟩ := anchorList_extend shaOf refs S1 hndS1 htipS1
  have hMsub : ∀ m' ∈ M, m' ∈ Ddel := by
    intro m' hm'
    obtain ⟨⟨r, hr, hme⟩, hnotS1⟩ := hMprop m' hm'
    have hmX0 : m' ∈ (anchorList shaOf st refs).1 := by
      rw [hme]
      exact anchorList_keeper_mem shaOf refs st r hr
    rcases List.mem_append.mp (hpermDel.mem_iff.mp hmX0) with h | h
    · exact absurd (List.mem_map.mpr ⟨m', h, rfl⟩) hnotS1
    · exact h
  obtain ⟨D0, hDperm, hD0prop⟩ := perm_extract_sub M Ddel hndDdel hMsub hMnd
  have hpermInit : (anchorList shaOf st refs).1.Perm
      ((anchorList shaOf S1 refs).1 ++ D0) := by
    have hx := hpermDel.trans (List.Perm.append_left S1 hDperm)
    rw [← List.append_assoc, ← hY0eq] at hx
    exact hx
  have hndY0 := anchorList_nodup shaOf refs S1 hndS1
  have hP3 : ∀ d ∈ D0, ∀ r ∈ refs, d.1 ≠ keeperName (shaOf r) := by
    intro d hd r hr hcon
    have hkY0 : (keeperName (shaOf r), shaOf r) ∈ (anchorList shaOf S1 refs).1 :=
      anchorList_keeper_mem shaOf refs S1 r hr
    have hndY0D0 : (((anchorList shaOf S1 refs).1.map Prod.fst) ++
        (D0.map Prod.fst)).Nodup := by
      have hx := (hpermInit.map Prod.fst).nodup_iff.mp hndX0
      rwa [List.map_append] at hx
    have hdisj2 := (List.nodup_append.mp hndY0D0).2.2
    have h1 : keeperName (shaOf r) ∈ (anchorList shaOf S1 refs).1.map Prod.fst :=
      List.mem_map.mpr ⟨_, hkY0, rfl⟩
    have h2 : keeperName (shaOf r) ∈ D0.map Prod.fst := by
      rw [← hcon]
      exact List.mem_map.mpr ⟨d, hd, rfl⟩
    exact hdisj2 h1 h2
  have hP4 : ∀ d ∈ D0, ∃ j ∈ refs, anc d.2 (shaOf j) = true :=
    fun d hd => hdoomDel d (hD0prop d hd).1
  have hP5 : ∀ r ∈ refs, ∀ v,
      (keeperName (shaOf r), v) ∈ (anchorList shaOf S1 refs).1 → v = shaOf r :=
    fun r hr v hv => anchorList_keeper_sha shaOf refs S1 hndS1 r hr v hv
  have hP6 : ∀ j ∈ refs,
      hasBranch (anchorList shaOf S1 refs).1 (keeperName (shaOf j)) = false →
      ∀ d ∈ D0, anc d.2 (shaOf j) = false := by
    intro j hj hb
    exfalso
    have hx := hasBranch_of_mem _ _ _ (anchorList_keeper_mem shaOf refs S1 j hj)
    rw [hb] at hx
    exact Bool.false_ne_true hx
  obtain ⟨Yf, mY, hrunY, hpermf⟩ := cleanup_pair anc shaOf htrans hanti refs
    (anchorList shaOf st refs).1 (anchorList shaOf S1 refs).1 D0 S1 mc
    hrefl hclean hpermInit hndY0 hP3 hP4 hP5 hP6
  refine ⟨Yf, (anchorList shaOf S1 refs).2 ++ mY, ?_, hpermf.symm⟩
  exact reconcile_build anc shaOf S1 refs _ _ Yf mY none rfl hrunY

/-- The chain reachability relation is transitive. -/
theorem ancChain_trans (a b c : String) (h1 : ancChain a b = true)
    (h2 : ancChain b c = true) : ancChain a c = true := by
  simp only [ancChain, Bool.or_eq_true, Bool.and_eq_true, beq_iff_eq] at h1 h2 ⊢
  rcases h1 with ⟨ha, hb⟩ | ⟨ha, hb⟩ <;> rcases h2 with ⟨hb', hc⟩ | ⟨hb', hc⟩ <;>
    simp_all

/-- The chain reachability relation is antisymmetric. -/
theorem ancChain_anti (a b : String) (h1 : ancChain a b = true)
    (h2 : ancChain b a = true) : a = b := by
  simp only [ancChain, Bool.or_eq_true, Bool.and_eq_true, beq_iff_eq] at h1 h2
  rcases h1 with ⟨ha, hb⟩ | ⟨ha, hb⟩ <;> rcases h2 with ⟨hb', hc⟩ | ⟨hb', hc⟩ <;>
    simp_all

/-- Witness: on the two-commit chain with pre-existing branch `other` at `b`
and one non-tag reference resolving to `a`, the first reconciler run succeeds
(creating and deleting the anchor `keep-a`), and re-running from its final
state succeeds and returns to the same branch set. -/
theorem c3_rerun_preserves_state_witness :
    ∃ S2 m2, reconcile ancChain (fun _ => "a") [("other", "b")] [refBr1] =
      (S2, m2, none) ∧ S2.Perm [("other", "b")] :=
  c3_rerun_preserves_state ancChain (fun _ => "a") [("other", "b")] [refBr1]
    ancChain_trans ancChain_anti
    (by intro r hr; show ancChain "a" "a" = true; decide) (by decide)
    [("other", "b")] [.created (keeperName "a") "a", .deleted (keeperName "a")]
    (by decide)

end ReconcilerSetIdempotence

end Doublegit
